import Mathlib

/-!
# The n-tuple value engine of the 2584 player (`agent.h`)

A shallow embedding of `player` from `src/2584_C++/agent.h`: the feature
extractor (`get_feature`, `get_features`), the value function
(`lookup_value`, `board_value`), the action selector (`take_action`) and the
TD(0) trainer (`train_weights`, `close_episode`), with the construction of
the agent (`agent_ctor`, `player_ctor`) and the weight file (`save_weights`,
`load_weights`).

Conventions of the embedding.

* `board.h`, `action.h` and `weight.h` are not among the sources.  A board is
  its grid of ranks `b[r][c]`; the operation `move` and the constants
  `MAX_INDEX` and `MIN_FLOAT` are parameters of the functions that use them.
* `long long` and `int` values are integers of `Int`.  `get_feature_steps_bound`
  shows that every intermediate value of `get_feature` stays in `[0, M^6)`, so
  the computation is exact whenever `M^6` fits the machine word.  The two
  conversions of `episode.size()` in `close_episode` wrap as in the code
  (`last_index`, `first_index`).
* `float` values are elements of a type `F` carrying the operations each
  function needs; the theorems about ordering and updates take `F` to be a
  linearly ordered ring (exact arithmetic).
* An access `v[i]` to a `std::vector` outside `0 .. size-1` has no defined
  result: every function that indexes a vector returns an `Option`, and
  `none` stands for such an access.  On a store that is `well_formed` and
  boards of non-negative ranks the value function and both `train_weights`
  return a result (`board_value_some`, `train_weights_terminal_some`,
  `train_weights_some`).
* A string is its list of characters, a file its list of bytes.  The table
  serializer of `weight.h` follows the description of the weight file in the
  spec; the bytes of a floating-point value and the conversions through
  `std::stod`, which can throw, are parameters.
-/

namespace Ntuple

/-- Modelled from the spec: the number of tuple patterns (the constant
`TUPLE_NUM` is declared outside `agent.h`; the table has 32 rows). -/
def TUPLE_NUM : Nat := 32

/-- Modelled from the spec: the number of cells of one pattern (the constant
`TUPLE_LENGTH` is declared outside `agent.h`; every row has 6 entries). -/
def TUPLE_LENGTH : Nat := 6

/-- Modelled from the spec: the board (`board.h` is not among the sources) is
read only through `b[r][c]`, the rank at row `r` and column `c`. -/
abbrev board := Nat → Nat → Int

/-- The table `player::indexs` of `agent.h`, lines 269-310. -/
def indexs : List (List Nat) :=
  [ [0, 4, 8, 9, 12, 13],
    [1, 5, 9, 10, 13, 14],
    [1, 2, 5, 6, 9, 10],
    [2, 3, 6, 7, 10, 11],

    [3, 2, 1, 5, 0, 4],
    [7, 6, 5, 9, 4, 8],
    [7, 11, 6, 10, 5, 9],
    [11, 15, 10, 14, 9, 13],

    [15, 11, 7, 6, 3, 2],
    [14, 10, 6, 5, 2, 1],
    [14, 13, 10, 9, 6, 5],
    [13, 12, 9, 8, 5, 4],

    [12, 13, 14, 10, 15, 11],
    [8, 9, 10, 6, 11, 7],
    [8, 4, 9, 5, 10, 6],
    [4, 0, 5, 1, 6, 2],

    [3, 7, 11, 10, 15, 14],
    [2, 6, 10, 9, 14, 13],
    [2, 1, 6, 5, 10, 9],
    [1, 0, 5, 4, 9, 8],

    [0, 1, 2, 6, 3, 7],
    [4, 5, 6, 10, 7, 11],
    [4, 8, 5, 9, 6, 10],
    [8, 12, 9, 13, 10, 14],

    [12, 8, 4, 5, 0, 1],
    [13, 9, 5, 6, 1, 2],
    [13, 14, 9, 10, 5, 6],
    [14, 15, 10, 11, 6, 7],

    [15, 14, 13, 9, 12, 8],
    [11, 10, 9, 5, 8, 4],
    [11, 7, 10, 6, 9, 5],
    [7, 3, 6, 2, 5, 1] ]

/-- One iteration of the loop of `player::get_feature` (lines 222-231):
`result *= MAX_INDEX`, then the rank at `(pos / 4, pos % 4)` is added,
replaced by `MAX_INDEX - 1` when it is at least `MAX_INDEX - 1`. -/
def get_feature_step (MAX_INDEX : Int) (b : board) (idx : List Nat)
    (result : Int) (i : Nat) : Int :=
  let result := result * MAX_INDEX
  let r := idx.getD i 0 / 4
  let c := idx.getD i 0 % 4
  if b r c ≥ MAX_INDEX - 1 then result + (MAX_INDEX - 1) else result + b r c

/-- The function `player::get_feature` (lines 219-234): `result` starts at 0
and the loop runs `i = 0 .. TUPLE_LENGTH - 1`. -/
def get_feature (MAX_INDEX : Int) (b : board) (idx : List Nat) : Int :=
  (List.range TUPLE_LENGTH).foldl (get_feature_step MAX_INDEX b idx) 0

/-- The function `player::get_features` (lines 200-208): the features of the
patterns `indexs[0] .. indexs[TUPLE_NUM - 1]`, pushed in that order. -/
def get_features (MAX_INDEX : Int) (before : board) : List Int :=
  (List.range TUPLE_NUM).foldl
    (fun features i => features ++ [get_feature MAX_INDEX before (indexs.getD i [])]) []

/-- Modelled from the spec: the action descriptor (`action.h` is not among
the sources).  `action best(best_op)` wraps the integer code of a direction;
`action.mk op` is that constructor call. -/
structure action where
  code : Int
deriving DecidableEq, Repr

/-- Modelled from the spec: the read `w[k]` of a weight table (`weight.h` is
not among the sources): a dense array of values, indexed by a feature index;
an index outside `0 .. size-1` has no value. -/
def weight_get {F : Type} (w : List F) (k : Int) : Option F :=
  if 0 ≤ k then w[k.toNat]? else none

/-- The read `weights[i][k]` of `lookup_value`: the table `weights[i]` of the
vector of tables, then its entry `k`; both indexings must be in range. -/
def weights_get {F : Type} (weights : List (List F)) (i : Nat) (k : Int) : Option F := do
  let w ← weights[i]?
  weight_get w k

/-- The statement `weights[i][k] += d` of `train_weights`: both indexings must
be in range; the entry `k` of table `i` is replaced by its value plus `d`. -/
def weights_add {F : Type} [Add F] (weights : List (List F)) (i : Nat) (k : Int) (d : F) :
    Option (List (List F)) := do
  let w ← weights[i]?
  let x ← weight_get w k
  pure (weights.set i (w.set k.toNat (x + d)))

/-- The function `player::lookup_value` (lines 239-245): `v_s` starts at 0 and
`weights[i][features[i]]` is added for `i = 0 .. TUPLE_NUM - 1`. -/
def lookup_value {F : Type} [Zero F] [Add F] (weights : List (List F)) (features : List Int) :
    Option F :=
  (List.range TUPLE_NUM).foldlM
    (fun v_s i => do
      let f ← features[i]?
      let x ← weights_get weights i f
      pure (v_s + x)) 0

/-- The function `player::board_value` (lines 250-252). -/
def board_value {F : Type} [Zero F] [Add F] (MAX_INDEX : Int) (weights : List (List F))
    (b : board) : Option F :=
  lookup_value weights (get_features MAX_INDEX b)

/-- The record `player::state` (lines 183-188). -/
structure state where
  after : board
  move : action
  reward : Int

/-- The data members of `player` that the engine reads and writes
(lines 181-191): the weight tables, the episode record and the learning rate. -/
structure player (F : Type) where
  weights : List (List F)
  episode : List state
  alpha : F

/-- The local variables of `player::take_action` that the loop over the four
directions updates (lines 123-126). -/
structure selection (F : Type) where
  best_op : Int
  best_vs : F
  after : board
  best_reward : Int

/-- The body of the loop of `player::take_action` (lines 130-140) for one
direction `op`.  `move before op` is the pair of the board `b` after
`b.move(op)` and the returned reward, `-1` for a move that is not legal. -/
def take_action_step {F : Type} [LinearOrderedRing F] (MAX_INDEX : Int)
    (move : board → Int → board × Int) (weights : List (List F)) (before : board)
    (sel : selection F) (op : Int) : Option (selection F) :=
  let b := (move before op).1
  let reward := (move before op).2
  if reward ≠ -1 then do
    let bv ← board_value MAX_INDEX weights b
    let v_s := bv + (reward : F)
    if v_s > sel.best_vs then
      pure { best_op := op, best_vs := v_s, after := b, best_reward := reward }
    else
      pure sel
  else
    pure sel

/-- The function `player::take_action` (lines 121-151): the returned action
and the player with the step pushed when `best_vs` has left `MIN_FLOAT`.  The
default-constructed `board after` is never read before it is assigned; it is
the empty grid here. -/
def take_action {F : Type} [LinearOrderedRing F] (MAX_INDEX : Int) (MIN_FLOAT : F)
    (move : board → Int → board × Int) (s : player F) (before : board) :
    Option (action × player F) := do
  let sel ← [0, 1, 2, 3].foldlM (take_action_step MAX_INDEX move s.weights before)
      { best_op := 0, best_vs := MIN_FLOAT, after := fun _ _ => 0, best_reward := 0 }
  let best := action.mk sel.best_op
  if sel.best_vs ≠ MIN_FLOAT then
    let step : state := state.mk sel.after best sel.best_reward
    pure (best, { s with episode := s.episode ++ [step] })
  else
    pure (best, s)

/-- The function `player::train_weights(b, next_b, reward)` (lines 254-259).
The right-hand side is evaluated anew, on the current tables, in each of the
`TUPLE_NUM` iterations. -/
def train_weights {F : Type} [LinearOrderedRing F] (MAX_INDEX : Int) (s : player F)
    (b next_b : board) (reward : Int) : Option (player F) :=
  let features := get_features MAX_INDEX b
  (List.range TUPLE_NUM).foldlM
    (fun (s : player F) i => do
      let f ← features[i]?
      let v_next ← board_value MAX_INDEX s.weights next_b
      let v ← lookup_value s.weights features
      let weights ← weights_add s.weights i f (s.alpha * ((reward : F) + v_next - v))
      pure { s with weights := weights }) s

/-- The function `player::train_weights(b)` (lines 261-266), the update of the
terminal board. -/
def train_weights_terminal {F : Type} [LinearOrderedRing F] (MAX_INDEX : Int) (s : player F)
    (b : board) : Option (player F) :=
  let features := get_features MAX_INDEX b
  (List.range TUPLE_NUM).foldlM
    (fun (s : player F) i => do
      let f ← features[i]?
      let v ← lookup_value s.weights features
      let weights ← weights_add s.weights i f (s.alpha * (0 - v))
      pure { s with weights := weights }) s

/-- The function `player::open_episode` (lines 104-107). -/
def open_episode {F : Type} (s : player F) : player F :=
  { s with episode := [] }

/-- The index `episode.size() - 1` of line 111, computed in `size_t`
(64 bits, unsigned). -/
def last_index (size : Nat) : Nat :=
  (size + 2 ^ 64 - 1) % 2 ^ 64

/-- The initial value of `int i = episode.size() - 2` (line 113): the
difference is computed in `size_t` (64 bits, unsigned) and converted to `int`
(32 bits, two's complement). -/
def first_index (size : Nat) : Int :=
  let low : Nat := (size + 2 ^ 64 - 2) % 2 ^ 64 % 2 ^ 32
  if low < 2 ^ 31 then (low : Int) else (low : Int) - 2 ^ 32

/-- The function `player::close_episode` (lines 109-119).  The loop variable
`int i` starts at `first_index (episode.size())` and runs down to 0; the loop
does nothing when it starts below 0.  The index `i + 1` of line 115 is the
exact successor of `i`, which is its value in `int` for every `i` below
`2^31 - 1`. -/
def close_episode {F : Type} [LinearOrderedRing F] (MAX_INDEX : Int) (s : player F) :
    Option (player F) := do
  let board_terminal ← (s.episode[last_index s.episode.length]?).map state.after
  let s ← train_weights_terminal MAX_INDEX s board_terminal
  (List.range (first_index s.episode.length + 1).toNat).reverse.foldlM
    (fun (s : player F) i => do
      let step ← s.episode[i]?
      let step_next ← s.episode[i + 1]?
      train_weights MAX_INDEX s step.after step_next.after step_next.reward) s

/-- The sizing of the weight store fixed at construction (lines 92-95): there
are `TUPLE_NUM` tables and each has `MAX_INDEX^6` entries. -/
def well_formed {F : Type} (MAX_INDEX : Int) (weights : List (List F)) : Prop :=
  weights.length = TUPLE_NUM ∧ ∀ w ∈ weights, (w.length : Int) = MAX_INDEX ^ 6

/-- The quarter turn of the 4x4 grid on row-major positions: the cell
`(r, c)` goes to `(c, 3 - r)`. -/
def rotate_cell (pos : Nat) : Nat := 4 * (pos % 4) + (3 - pos / 4)

/-- The mirror image of the 4x4 grid on row-major positions: the cell
`(r, c)` goes to `(r, 3 - c)`. -/
def mirror_cell (pos : Nat) : Nat := 4 * (pos / 4) + (3 - pos % 4)

/-- The eight symmetries of the 4x4 grid, numbered as the groups of four
patterns of `indexs`: `k % 4` quarter turns, followed by the mirror image
for `k = 4 .. 7`. -/
def grid_symmetry (k : Nat) (pos : Nat) : Nat :=
  if k / 4 = 0 then rotate_cell^[k % 4] pos else mirror_cell (rotate_cell^[k % 4] pos)

/-- The whitespace characters that `ss >> pair` skips and stops at (the
classic locale): space, `\t`, `\n`, `\v`, `\f` and `\r`. -/
def is_space (c : Char) : Bool :=
  c = Char.ofNat 32 || c = Char.ofNat 9 || c = Char.ofNat 10 || c = Char.ofNat 11 ||
    c = Char.ofNat 12 || c = Char.ofNat 13

/-- The tokens read by the loop `for (std::string pair; ss >> pair; )` of line
16: each extraction skips whitespace and reads up to the next whitespace or
the end; `pair` holds the characters read so far, latest first. -/
def read_tokens : List Char → List Char → List (List Char)
  | [], pair => if pair = [] then [] else [pair.reverse]
  | c :: rest, pair =>
    if is_space c then
      if pair = [] then read_tokens rest [] else pair.reverse :: read_tokens rest []
    else read_tokens rest (c :: pair)

/-- The map `agent::property` (line 43): a key has a value or is absent. -/
abbrev property_map := String → Option String

/-- The assignment `property[key] = { value }` of line 19. -/
def property_set (property : property_map) (key value : String) : property_map :=
  fun k => if k = key then some value else property k

/-- The lines 17-18: `pair.find('=')` is the index of the first `=`, or `npos`
when there is none; then `substr(0, npos)` and `substr(npos + 1)`, which is
`substr(0)`, are both the whole token. -/
def split_pair (pair : List Char) : String × String :=
  let found := pair.indexOf (Char.ofNat 61)
  if found < pair.length then
    (String.mk (pair.take found), String.mk (pair.drop (found + 1)))
  else
    (String.mk pair, String.mk pair)

/-- The constructor `agent::agent` (lines 14-23): the property map built from
the tokens of `args`, in order. -/
def agent_ctor (args : String) : property_map :=
  (read_tokens args.data []).foldl
    (fun property pair => property_set property (split_pair pair).1 (split_pair pair).2)
    (fun _ => none)

/-- The text of a token before its first `=`. -/
def key_of (token : List Char) : String :=
  String.mk (token.takeWhile (fun c => c != Char.ofNat 61))

/-- The text of a token after its first `=`. -/
def value_of (token : List Char) : String :=
  String.mk ((token.dropWhile (fun c => c != Char.ofNat 61)).drop 1)

/-- The 8 bytes written by `out.write(reinterpret_cast<char*>(&size),
sizeof(size))` (line 171) for a `size_t`, least significant byte first. -/
def size_bytes (n : Nat) : List Nat :=
  (List.range 8).map (fun i => n / 256 ^ i % 256)

/-- The `size_t` read by `in.read(reinterpret_cast<char*>(&size),
sizeof(size))` (line 159) from the first 8 bytes of the input. -/
def bytes_size (bytes : List Nat) : Nat :=
  (bytes.take 8).foldr (fun b n => b + 256 * n) 0

/-- Modelled from the spec: `out << w` for a weight table (`weight.h` is not
among the sources): the table writes its own length, then that many raw
floating-point values; `float_bytes x` is the 4 bytes of the value `x`. -/
def write_weight {F : Type} (float_bytes : F → List Nat) (w : List F) : List Nat :=
  size_bytes w.length ++ (w.map float_bytes).flatten

/-- Modelled from the spec: the raw read of `n` floating-point values of 4
bytes each (`weight.h` is not among the sources); the values and the rest of
the input, or nothing when the input is too short. -/
def read_floats {F : Type} (bytes_float : List Nat → F) :
    Nat → List Nat → Option (List F × List Nat)
  | 0, input => some ([], input)
  | n + 1, input =>
    if input.length < 4 then none
    else (read_floats bytes_float n (input.drop 4)).map
      (fun r => (bytes_float (input.take 4) :: r.1, r.2))

/-- Modelled from the spec: `in >> w` for a weight table (`weight.h` is not
among the sources): the table reads its length, then that many raw values. -/
def read_weight {F : Type} (bytes_float : List Nat → F) (input : List Nat) :
    Option (List F × List Nat) :=
  if input.length < 8 then none
  else read_floats bytes_float (bytes_size input) (input.drop 8)

/-- The ways `load_weights` ends without a weight store: `std::exit(-1)` when
the file cannot be opened (line 157), and no defined result: the code checks
neither `in.read` (line 159) nor `in >> w` (line 162), so on a file that ends
before the data it announces `size` or a table is left unset and the source
does not determine the store. -/
inductive load_failure where
  | exit
  | undefined
deriving DecidableEq, Repr

/-- The function `player::save_weights` (lines 166-176): the bytes written to
the file, the number of tables and then each table. -/
def save_weights {F : Type} (float_bytes : F → List Nat) (weights : List (List F)) :
    List Nat :=
  size_bytes weights.length ++ (weights.map (write_weight float_bytes)).flatten

/-- The loop `for (weight& w : weights) in >> w;` of line 161 over the `n`
tables of `weights.resize(size)`. -/
def read_weights {F : Type} (bytes_float : List Nat → F) :
    Nat → List Nat → Option (List (List F))
  | 0, _ => some []
  | n + 1, input =>
    (read_weight bytes_float input).bind
      (fun r => (read_weights bytes_float n r.2).map (fun ws => r.1 :: ws))

/-- The function `player::load_weights` (lines 154-164) on the content of the
file, `none` for a file that cannot be opened.  The code makes no check of the
reads: where the file has fewer than the 8 bytes of `size`, or ends inside a
table, the store is not determined and the result is
`load_failure.undefined`. -/
def load_weights {F : Type} (bytes_float : List Nat → F) (file : Option (List Nat)) :
    Except load_failure (List (List F)) :=
  match file with
  | none => Except.error load_failure.exit
  | some input =>
    if input.length < 8 then Except.error load_failure.undefined
    else match read_weights bytes_float (bytes_size input) (input.drop 8) with
      | some weights => Except.ok weights
      | none => Except.error load_failure.undefined

/-- Modelled from the spec: the constructor `weight(n)` (`weight.h` is not
among the sources): a dense array of `n` values, default-initialized to
zero. -/
def weight_new {F : Type} [Zero F] (n : Nat) : List F :=
  List.replicate n 0

/-- The ways the constructor `player::player` ends without a player: the
exception of `std::stod` (line 41) on a value of `seed` or `alpha` that it
cannot convert, and the failures of `load_weights`. -/
inductive ctor_failure where
  | conversion
  | load (failure : load_failure)
deriving DecidableEq, Repr

/-- The conversion `operator numeric()` of a property value (line 41),
`numeric(std::stod(value))`: `conv value` is the converted number, `none` when
`std::stod` throws (no number at the start of the value, or a number out of
the range of `double`) or the number has no value of the type `numeric`. -/
def numeric {α : Type} (conv : String → Option α) (value : String) :
    Except ctor_failure α :=
  match conv value with
  | some x => Except.ok x
  | none => Except.error ctor_failure.conversion

/-- The constructor `player::player` (lines 81-97).  `alpha_default` is
the literal `0.0025f`, `stod_int` and `stod_float` are the conversions
`int(property["seed"])` and `float(property["alpha"])` through `std::stod`
(line 41) and `open_file` the content of the file at a path, when it can be
opened.  The value of `seed` is converted as in the code (lines 82-83); the
state of `engine` that it seeds, which the player never draws from, is not a
field of `player`.  The product `feature_num` of line 92 is exact while
`MAX_INDEX^6` fits an `int`, that is for `MAX_INDEX` up to 35. -/
def player_ctor {F : Type} [Zero F] (MAX_INDEX : Int) (alpha_default : F)
    (stod_int : String → Option Int) (stod_float : String → Option F)
    (bytes_float : List Nat → F)
    (open_file : String → Option (List Nat)) (args : String) :
    Except ctor_failure (player F) :=
  let property := agent_ctor ("name=player " ++ args)
  let seed : Except ctor_failure (Option Int) := match property "seed" with
    | some value => (numeric stod_int value).map some
    | none => Except.ok none
  let alpha : Except ctor_failure F := match property "alpha" with
    | some value => numeric stod_float value
    | none => Except.ok alpha_default
  seed.bind fun _ => alpha.bind fun alpha =>
    match property "load" with
    | some path =>
      match load_weights bytes_float (open_file path) with
      | Except.ok weights => Except.ok (player.mk weights [] alpha)
      | Except.error failure => Except.error (ctor_failure.load failure)
    | none =>
      let feature_num := MAX_INDEX * MAX_INDEX * MAX_INDEX * MAX_INDEX * MAX_INDEX * MAX_INDEX
      Except.ok (player.mk
        ((List.range TUPLE_NUM).foldl
          (fun weights _ => weights ++ [weight_new feature_num.toNat]) [])
        [] alpha)

/-- The frame of an update of the weight store: `W'` has the tables of `W`
with their lengths, and the same entry as `W` wherever `touched` does not
hold. -/
def same_outside {F : Type} (touched : Nat → Int → Prop) (W W' : List (List F)) : Prop :=
  W'.length = W.length ∧
  (∀ p : Nat, (W'[p]?).map List.length = (W[p]?).map List.length) ∧
  ∀ p k, ¬ touched p k → weights_get W' p k = weights_get W p k

/-! ## Sample data -/

/-- A board with the ranks 0, 1, .., 15 in row-major order. -/
def sample_board : board := fun r c => ((4 * r + c : Nat) : Int)

/-- A weight store of 32 tables of length `2^6`, every entry 1. -/
def sample_weights : List (List ℚ) := List.replicate 32 (List.replicate 64 1)

/-- The lowest finite single-precision value, `-FLT_MAX`. -/
def lowest_float : ℚ := -340282346638528859811704183484516925440

/-- A weight store of 32 tables of length `2^6`, every entry `-FLT_MAX`. -/
def low_weights : List (List ℚ) := List.replicate 32 (List.replicate 64 lowest_float)

/-- A move operation for which every direction is legal; direction 2 earns
the reward 8, the others 4. -/
def sample_move : board → Int → board × Int :=
  fun b op => (b, if op = 2 then 8 else 4)

/-- A move operation for which only the directions 1 and 2 are legal, both
with reward 0. -/
def move_1_2 : board → Int → board × Int :=
  fun b op => (b, if op = 1 ∨ op = 2 then 0 else -1)

/-- A move operation for which only the direction 1 is legal, with reward 0. -/
def move_only_1 : board → Int → board × Int :=
  fun b op => (b, if op = 1 then 0 else -1)

/-- A move operation for which no direction is legal: `move` returns `-1`
and leaves the board as it is. -/
def no_move : board → Int → board × Int :=
  fun b _ => (b, -1)

/-- A full board without two equal or consecutive neighbours: the ranks 1
and 3 alternate. -/
def dead_board : board := fun r c => if (r + c) % 2 = 0 then 1 else 3

/-- A weight store of 32 tables of length `2^6`, every entry 0. -/
def zero_weights : List (List ℚ) := List.replicate 32 (List.replicate 64 0)

/-- The record of an episode of two steps: the first move leads to the
sample board with reward 4, the second to the dead board with reward 0. -/
def two_steps : List state :=
  [state.mk sample_board (action.mk 0) 4, state.mk dead_board (action.mk 1) 0]

/-- A board whose 16 ranks are all 20. -/
def high_board_a : board := fun _ _ => 20

/-- A board with the ranks 20, 21, .., 35 in row-major order. -/
def high_board_b : board := fun r c => 20 + ((4 * r + c : Nat) : Int)

/-- The 4 bytes of the single-precision values 1 and 0, least significant
byte first. -/
def sample_float_bytes : ℚ → List Nat :=
  fun x => if x = 1 then [0, 0, 128, 63] else [0, 0, 0, 0]

/-- The value of 4 bytes, for the bytes of 1 and 0. -/
def sample_bytes_float : List Nat → ℚ :=
  fun bytes => if bytes = [0, 0, 128, 63] then 1 else 0

/-- A conversion to `int` that knows the value `1` only. -/
def sample_stod_int : String → Option Int :=
  fun value => if value = "1" then some 1 else none

/-- A conversion to `float` that knows the value `0.0025` only. -/
def sample_stod_float : String → Option ℚ :=
  fun value => if value = "0.0025" then some (1 / 400) else none

/-! ## Feature extraction -/

theorem get_feature_step_eq (M : Int) (b : board) (idx : List Nat) (result : Int) (i : Nat) :
    get_feature_step M b idx result i
      = result * M + min (b (idx.getD i 0 / 4) (idx.getD i 0 % 4)) (M - 1) := by
  unfold get_feature_step
  by_cases h : b (idx.getD i 0 / 4) (idx.getD i 0 % 4) ≥ M - 1
  · simp only [h, if_true]; rw [min_eq_right h]
  · simp only [h, if_false]; rw [min_eq_left (le_of_lt (not_le.mp h))]

theorem get_feature_fold_bound (M : Int) (hM : 1 ≤ M) (b : board) (hb : ∀ r c, 0 ≤ b r c)
    (idx : List Nat) :
    ∀ (l : List Nat) (r : Int) (n : Nat), 0 ≤ r → r < M ^ n →
      0 ≤ l.foldl (get_feature_step M b idx) r ∧
        l.foldl (get_feature_step M b idx) r < M ^ (n + l.length) := by
  intro l
  induction l with
  | nil => intro r n h0 h1; simpa using ⟨h0, h1⟩
  | cons i t ih =>
    intro r n h0 h1
    have hd0 : 0 ≤ min (b (idx.getD i 0 / 4) (idx.getD i 0 % 4)) (M - 1) :=
      le_min (hb _ _) (by omega)
    have hd1 : min (b (idx.getD i 0 / 4) (idx.getD i 0 % 4)) (M - 1) ≤ M - 1 := min_le_right _ _
    have hM0 : 0 ≤ M := by omega
    have hmul : r * M ≤ (M ^ n - 1) * M := mul_le_mul_of_nonneg_right (by omega) hM0
    have hstep0 : 0 ≤ get_feature_step M b idx r i := by
      rw [get_feature_step_eq]
      have := mul_nonneg h0 hM0
      omega
    have hstep1 : get_feature_step M b idx r i < M ^ (n + 1) := by
      rw [get_feature_step_eq, pow_succ]
      have : (M ^ n - 1) * M = M ^ n * M - M := by ring
      omega
    have := ih (get_feature_step M b idx r i) (n + 1) hstep0 hstep1
    simpa [List.foldl_cons, Nat.add_assoc, Nat.add_comm 1] using this

theorem get_feature_steps_bound (M : Int) (hM : 1 ≤ M) (b : board) (hb : ∀ r c, 0 ≤ b r c)
    (idx : List Nat) (n : Nat) (hn : n ≤ TUPLE_LENGTH) :
    0 ≤ (List.range n).foldl (get_feature_step M b idx) 0 ∧
      (List.range n).foldl (get_feature_step M b idx) 0 < M ^ 6 := by
  have h := get_feature_fold_bound M hM b hb idx (List.range n) 0 0 le_rfl (by simp)
  rw [List.length_range, Nat.zero_add] at h
  refine ⟨h.1, lt_of_lt_of_le h.2 ?_⟩
  exact pow_le_pow_right₀ hM hn

theorem get_feature_bound (M : Int) (hM : 1 ≤ M) (b : board) (hb : ∀ r c, 0 ≤ b r c)
    (idx : List Nat) : 0 ≤ get_feature M b idx ∧ get_feature M b idx < M ^ 6 :=
  get_feature_steps_bound M hM b hb idx TUPLE_LENGTH le_rfl

theorem foldl_push_eq_map {α β : Type} (f : α → β) (l : List α) (init : List β) :
    l.foldl (fun acc i => acc ++ [f i]) init = init ++ l.map f := by
  induction l generalizing init with
  | nil => simp
  | cons a t ih => simp [ih]

theorem get_features_eq_map (M : Int) (b : board) :
    get_features M b = (List.range TUPLE_NUM).map (fun i => get_feature M b (indexs.getD i [])) := by
  unfold get_features
  rw [foldl_push_eq_map]
  simp

theorem get_features_length (M : Int) (b : board) : (get_features M b).length = TUPLE_NUM := by
  rw [get_features_eq_map]; simp

theorem get_features_getElem? (M : Int) (b : board) (p : Nat) (hp : p < TUPLE_NUM) :
    (get_features M b)[p]? = some (get_feature M b (indexs.getD p [])) := by
  rw [get_features_eq_map]
  simp [List.getElem?_map, List.getElem?_range hp]

theorem lookup_fold_eq_some {F : Type} [Zero F] [Add F] (W : List (List F)) (feats : List Int)
    (x : Nat → F) (l : List Nat) (v0 : F)
    (h : ∀ i ∈ l, ∃ f, feats[i]? = some f ∧ weights_get W i f = some (x i)) :
    l.foldlM (fun v_s i => do
        let f ← feats[i]?
        let x ← weights_get W i f
        pure (v_s + x)) v0 = some (l.foldl (fun v i => v + x i) v0) := by
  induction l generalizing v0 with
  | nil => rfl
  | cons a t ih =>
    obtain ⟨f, hf, hx⟩ := h a (List.mem_cons_self a t)
    rw [List.foldlM_cons, hf]
    simp only [Option.bind_eq_bind, Option.some_bind, hx, List.foldl_cons]
    exact ih _ (fun i hi => h i (List.mem_cons_of_mem a hi))

theorem lookup_value_eq_some {F : Type} [Zero F] [Add F] (W : List (List F)) (feats : List Int)
    (x : Nat → F)
    (h : ∀ i, i < TUPLE_NUM → ∃ f, feats[i]? = some f ∧ weights_get W i f = some (x i)) :
    lookup_value W feats = some ((List.range TUPLE_NUM).foldl (fun v i => v + x i) 0) :=
  lookup_fold_eq_some W feats x (List.range TUPLE_NUM) 0
    (fun i hi => h i (List.mem_range.mp hi))

theorem indexs_length : indexs.length = TUPLE_NUM := by decide

theorem indexs_shape : ∀ p ∈ indexs, p.length = TUPLE_LENGTH ∧ ∀ x ∈ p, x < 16 := by decide

/-! ## Well-formed weight stores -/

theorem weights_get_some {F : Type} (M : Int) (W : List (List F)) (hW : well_formed M W)
    (i : Nat) (hi : i < TUPLE_NUM) (k : Int) (h0 : 0 ≤ k) (h1 : k < M ^ 6) :
    ∃ x, weights_get W i k = some x := by
  have hlt : i < W.length := by rw [hW.1]; exact hi
  have hlen := hW.2 W[i] (List.getElem_mem hlt)
  have hk : k.toNat < W[i].length := by omega
  refine ⟨W[i][k.toNat], ?_⟩
  simp [weights_get, weight_get, h0, List.getElem?_eq_getElem hlt, List.getElem?_eq_getElem hk]

theorem weights_add_some {F : Type} [Add F] (M : Int) (W : List (List F))
    (hW : well_formed M W) (i : Nat) (hi : i < TUPLE_NUM) (k : Int) (h0 : 0 ≤ k)
    (h1 : k < M ^ 6) (d : F) :
    ∃ W', weights_add W i k d = some W' ∧ well_formed M W' := by
  have hlt : i < W.length := by rw [hW.1]; exact hi
  have hlen := hW.2 W[i] (List.getElem_mem hlt)
  have hk : k.toNat < W[i].length := by omega
  refine ⟨W.set i (W[i].set k.toNat (W[i][k.toNat] + d)), ?_, ?_, ?_⟩
  · simp [weights_add, weight_get, h0, List.getElem?_eq_getElem hlt,
      List.getElem?_eq_getElem hk]
  · rw [List.length_set]; exact hW.1
  · intro w hw
    rcases List.mem_or_eq_of_mem_set hw with h | h
    · exact hW.2 w h
    · rw [h, List.length_set]; exact hlen

theorem get_features_in_range (M : Int) (hM : 1 ≤ M) (b : board) (hb : ∀ r c, 0 ≤ b r c)
    (i : Nat) (hi : i < TUPLE_NUM) :
    ∃ f, (get_features M b)[i]? = some f ∧ 0 ≤ f ∧ f < M ^ 6 :=
  ⟨_, get_features_getElem? M b i hi, get_feature_bound M hM b hb _⟩

theorem lookup_value_some {F : Type} [Zero F] [Add F] (M : Int) (W : List (List F))
    (hW : well_formed M W) (feats : List Int)
    (hf : ∀ i, i < TUPLE_NUM → ∃ f, feats[i]? = some f ∧ 0 ≤ f ∧ f < M ^ 6) :
    ∃ v, lookup_value W feats = some v := by
  have hx : ∀ i, i < TUPLE_NUM → ∃ f, feats[i]? = some f ∧
      weights_get W i f = some ((weights_get W i ((feats[i]?).getD 0)).getD 0) := by
    intro i hi
    obtain ⟨f, hf1, h0, h1⟩ := hf i hi
    obtain ⟨x, hx⟩ := weights_get_some M W hW i hi f h0 h1
    exact ⟨f, hf1, by rw [hf1, Option.getD_some, hx, Option.getD_some]⟩
  exact ⟨_, lookup_value_eq_some W feats _ hx⟩

theorem board_value_some {F : Type} [Zero F] [Add F] (M : Int) (hM : 1 ≤ M)
    (W : List (List F)) (hW : well_formed M W) (b : board) (hb : ∀ r c, 0 ≤ b r c) :
    ∃ v, board_value M W b = some v :=
  lookup_value_some M W hW _ (get_features_in_range M hM b hb)

/-! ## The action selector -/

theorem take_action_step_eq {F : Type} [LinearOrderedRing F] (M : Int)
    (move : board → Int → board × Int) (W : List (List F)) (before : board)
    (sel : selection F) (op : Int) (v : F)
    (hv : (move before op).2 ≠ -1 → board_value M W (move before op).1 = some v) :
    take_action_step M move W before sel op
      = some (if (move before op).2 ≠ -1 ∧ sel.best_vs < v + ((move before op).2 : F) then
          { best_op := op, best_vs := v + ((move before op).2 : F), after := (move before op).1,
            best_reward := (move before op).2 }
        else sel) := by
  unfold take_action_step
  by_cases hl : (move before op).2 ≠ -1
  · by_cases hgt : sel.best_vs < v + ((move before op).2 : F)
    · simp [hl, hv hl, hgt]
    · simp [hl, hv hl, hgt]
  · simp [hl]

theorem take_action_fold {F : Type} [LinearOrderedRing F] (M : Int)
    (move : board → Int → board × Int) (W : List (List F)) (before : board) (val : Int → F)
    (l : List Int) :
    ∀ (sel : selection F),
    (∀ op ∈ l, (move before op).2 ≠ -1 → board_value M W (move before op).1 = some (val op)) →
    ∃ sel', l.foldlM (take_action_step M move W before) sel = some sel' ∧
      ((sel' = sel ∧
          ∀ op ∈ l, (move before op).2 ≠ -1 → val op + ((move before op).2 : F) ≤ sel.best_vs) ∨
        ∃ l1 op l2, l = l1 ++ op :: l2 ∧ (move before op).2 ≠ -1 ∧
          sel' = { best_op := op, best_vs := val op + ((move before op).2 : F),
                   after := (move before op).1, best_reward := (move before op).2 } ∧
          sel.best_vs < val op + ((move before op).2 : F) ∧
          (∀ x ∈ l1, (move before x).2 ≠ -1 →
            val x + ((move before x).2 : F) < val op + ((move before op).2 : F)) ∧
          (∀ x ∈ l2, (move before x).2 ≠ -1 →
            val x + ((move before x).2 : F) ≤ val op + ((move before op).2 : F))) := by
  induction l with
  | nil =>
    intro sel _
    exact ⟨sel, rfl, Or.inl ⟨rfl, by simp⟩⟩
  | cons a t ih =>
    intro sel hval
    have hstep := take_action_step_eq M move W before sel a (val a)
      (hval a (List.mem_cons_self a t))
    have hval_t : ∀ op ∈ t, (move before op).2 ≠ -1 →
        board_value M W (move before op).1 = some (val op) :=
      fun op hop => hval op (List.mem_cons_of_mem a hop)
    rw [List.foldlM_cons, hstep]
    simp only [Option.bind_eq_bind, Option.some_bind]
    by_cases hc : (move before a).2 ≠ -1 ∧ sel.best_vs < val a + ((move before a).2 : F)
    · rw [if_pos hc]
      obtain ⟨sel', hfold, hcase⟩ := ih
        { best_op := a, best_vs := val a + ((move before a).2 : F), after := (move before a).1,
          best_reward := (move before a).2 } hval_t
      refine ⟨sel', hfold, Or.inr ?_⟩
      rcases hcase with ⟨heq, hle⟩ | ⟨l1, op, l2, hl, hlegal, hsel, hlt, h1, h2⟩
      · exact ⟨[], a, t, rfl, hc.1, heq, hc.2, by simp, hle⟩
      · refine ⟨a :: l1, op, l2, by rw [hl]; rfl, hlegal, hsel, lt_trans hc.2 hlt, ?_, h2⟩
        intro x hx hxl
        rcases List.mem_cons.mp hx with rfl | hx
        · exact hlt
        · exact h1 x hx hxl
    · rw [if_neg hc]
      obtain ⟨sel', hfold, hcase⟩ := ih sel hval_t
      refine ⟨sel', hfold, ?_⟩
      have ha : (move before a).2 ≠ -1 → val a + ((move before a).2 : F) ≤ sel.best_vs :=
        fun hla => not_lt.mp (fun hlt => hc ⟨hla, hlt⟩)
      rcases hcase with ⟨heq, hle⟩ | ⟨l1, op, l2, hl, hlegal, hsel, hlt, h1, h2⟩
      · refine Or.inl ⟨heq, ?_⟩
        intro x hx hxl
        rcases List.mem_cons.mp hx with rfl | hx
        · exact ha hxl
        · exact hle x hx hxl
      · refine Or.inr ⟨a :: l1, op, l2, by rw [hl]; rfl, hlegal, hsel, hlt, ?_, h2⟩
        intro x hx hxl
        rcases List.mem_cons.mp hx with rfl | hx
        · exact lt_of_le_of_lt (ha hxl) hlt
        · exact h1 x hx hxl

theorem take_action_spec {F : Type} [LinearOrderedRing F] (M : Int) (MIN_FLOAT : F)
    (move : board → Int → board × Int) (s : player F) (before : board) (val : Int → F)
    (hval : ∀ op ∈ [0, 1, 2, 3], (move before op).2 ≠ -1 →
      board_value M s.weights (move before op).1 = some (val op)) :
    (take_action M MIN_FLOAT move s before = some (action.mk 0, s) ∧
        ∀ op ∈ [0, 1, 2, 3], (move before op).2 ≠ -1 →
          val op + ((move before op).2 : F) ≤ MIN_FLOAT) ∨
      ∃ l1 d l2, [0, 1, 2, 3] = l1 ++ d :: l2 ∧ (move before d).2 ≠ -1 ∧
        take_action M MIN_FLOAT move s before
          = some (action.mk d, { s with episode := s.episode ++
              [state.mk (move before d).1 (action.mk d) (move before d).2] }) ∧
        MIN_FLOAT < val d + ((move before d).2 : F) ∧
        (∀ x ∈ l1, (move before x).2 ≠ -1 →
          val x + ((move before x).2 : F) < val d + ((move before d).2 : F)) ∧
        (∀ x ∈ l2, (move before x).2 ≠ -1 →
          val x + ((move before x).2 : F) ≤ val d + ((move before d).2 : F)) := by
  obtain ⟨sel', hfold, hcase⟩ := take_action_fold M move s.weights before val [0, 1, 2, 3]
    { best_op := 0, best_vs := MIN_FLOAT, after := fun _ _ => 0, best_reward := 0 } hval
  rcases hcase with ⟨heq, hle⟩ | ⟨l1, d, l2, hl, hlegal, hsel, hlt, h1, h2⟩
  · refine Or.inl ⟨?_, hle⟩
    unfold take_action
    rw [hfold, heq]
    simp
  · refine Or.inr ⟨l1, d, l2, hl, hlegal, ?_, hlt, h1, h2⟩
    unfold take_action
    rw [hfold, hsel]
    simp [ne_of_gt hlt]

theorem take_action_all_below {F : Type} [LinearOrderedRing F] (M : Int) (MIN_FLOAT : F)
    (move : board → Int → board × Int) (s : player F) (before : board) (val : Int → F)
    (hval : ∀ op ∈ [0, 1, 2, 3], (move before op).2 ≠ -1 →
      board_value M s.weights (move before op).1 = some (val op))
    (hle : ∀ op ∈ [0, 1, 2, 3], (move before op).2 ≠ -1 →
      val op + ((move before op).2 : F) ≤ MIN_FLOAT) :
    take_action M MIN_FLOAT move s before = some (action.mk 0, s) := by
  rcases take_action_spec M MIN_FLOAT move s before val hval with
    ⟨h, _⟩ | ⟨l1, d, l2, hl, hd, _, hlt, _, _⟩
  · exact h
  · have hmem : d ∈ ([0, 1, 2, 3] : List Int) := by rw [hl]; simp
    exact absurd (hle d hmem hd) (not_le.mpr hlt)

/-! ## The trainer -/

theorem foldlM_invariant {α β : Type} (f : β → α → Option β) (P : β → Prop)
    (hstep : ∀ b a b', P b → f b a = some b' → P b') :
    ∀ (l : List α) (b b' : β), P b → l.foldlM f b = some b' → P b' := by
  intro l
  induction l with
  | nil =>
    intro b b' hb h
    have hbb : b = b' := Option.some.inj h
    exact hbb ▸ hb
  | cons a t ih =>
    intro b b' hb h
    rw [List.foldlM_cons] at h
    cases hfa : f b a with
    | none => rw [hfa] at h; exact absurd h (by simp)
    | some b1 =>
      rw [hfa] at h
      exact ih b1 b' (hstep b a b1 hb hfa) h

theorem train_weights_terminal_frame {F : Type} [LinearOrderedRing F] (M : Int)
    (s s' : player F) (b : board) (h : train_weights_terminal M s b = some s') :
    s'.episode = s.episode ∧ s'.alpha = s.alpha := by
  unfold train_weights_terminal at h
  refine foldlM_invariant _ (fun t : player F => t.episode = s.episode ∧ t.alpha = s.alpha)
    ?_ _ s s' ⟨rfl, rfl⟩ h
  intro t i t' ht hstep
  simp only [Option.bind_eq_bind, Option.bind_eq_some, Option.pure_def, Option.some.injEq]
    at hstep
  obtain ⟨f, _, v, _, w, _, rfl⟩ := hstep
  exact ht

theorem train_weights_frame {F : Type} [LinearOrderedRing F] (M : Int)
    (s s' : player F) (b next_b : board) (reward : Int)
    (h : train_weights M s b next_b reward = some s') :
    s'.episode = s.episode ∧ s'.alpha = s.alpha := by
  unfold train_weights at h
  refine foldlM_invariant _ (fun t : player F => t.episode = s.episode ∧ t.alpha = s.alpha)
    ?_ _ s s' ⟨rfl, rfl⟩ h
  intro t i t' ht hstep
  simp only [Option.bind_eq_bind, Option.bind_eq_some, Option.pure_def, Option.some.injEq]
    at hstep
  obtain ⟨f, _, vn, _, v, _, w, _, rfl⟩ := hstep
  exact ht

theorem option_bind_congr {α β : Type} (o : Option α) (f g : α → Option β)
    (h : ∀ a, o = some a → f a = g a) : o.bind f = o.bind g := by
  cases o with
  | none => rfl
  | some a => exact h a rfl

theorem close_two_steps_zero_store :
    (close_episode 2 (player.mk zero_weights two_steps (1 / 400))).bind
        (fun s => weights_get s.weights 0 (get_feature 2 sample_board (indexs.getD 0 [])))
      = some 0 := by
  decide!

theorem close_two_steps_sample_store :
    (close_episode 2 (player.mk sample_weights two_steps (1 / 2))).bind
        (fun s => weights_get s.weights 0 (get_feature 2 sample_board (indexs.getD 0 [])))
      = some (-15729201 / 2097152) := by
  decide!

theorem foldlM_some_of_invariant {α β : Type} (f : β → α → Option β) (P : β → Prop)
    (l : List α) (hstep : ∀ b a, a ∈ l → P b → ∃ b', f b a = some b' ∧ P b') :
    ∀ b, P b → ∃ b', l.foldlM f b = some b' ∧ P b' := by
  induction l with
  | nil => intro b hb; exact ⟨b, rfl, hb⟩
  | cons a t ih =>
    intro b hb
    obtain ⟨b1, hb1, hP1⟩ := hstep b a (List.mem_cons_self a t) hb
    obtain ⟨b2, hb2, hP2⟩ := ih (fun b a ha => hstep b a (List.mem_cons_of_mem _ ha)) b1 hP1
    exact ⟨b2, by rw [List.foldlM_cons, hb1]; exact hb2, hP2⟩

theorem train_weights_terminal_some {F : Type} [LinearOrderedRing F] (M : Int) (hM : 1 ≤ M)
    (s : player F) (hW : well_formed M s.weights) (b : board) (hb : ∀ r c, 0 ≤ b r c) :
    ∃ s', train_weights_terminal M s b = some s' ∧ well_formed M s'.weights := by
  unfold train_weights_terminal
  refine foldlM_some_of_invariant _ (fun t : player F => well_formed M t.weights) _ ?_ s hW
  intro t i hi ht
  have hi' : i < TUPLE_NUM := List.mem_range.mp hi
  obtain ⟨f, hf, h0, h1⟩ := get_features_in_range M hM b hb i hi'
  obtain ⟨v, hv⟩ := lookup_value_some M t.weights ht _ (get_features_in_range M hM b hb)
  obtain ⟨W', hW', hwf⟩ := weights_add_some M t.weights ht i hi' f h0 h1 (t.alpha * (0 - v))
  exact ⟨{ t with weights := W' },
    by simp only [hf, hv, hW', Option.bind_eq_bind, Option.some_bind, Option.pure_def], hwf⟩

theorem train_weights_some {F : Type} [LinearOrderedRing F] (M : Int) (hM : 1 ≤ M)
    (s : player F) (hW : well_formed M s.weights) (b next_b : board)
    (hb : ∀ r c, 0 ≤ b r c) (hn : ∀ r c, 0 ≤ next_b r c) (reward : Int) :
    ∃ s', train_weights M s b next_b reward = some s' ∧ well_formed M s'.weights := by
  unfold train_weights
  refine foldlM_some_of_invariant _ (fun t : player F => well_formed M t.weights) _ ?_ s hW
  intro t i hi ht
  have hi' : i < TUPLE_NUM := List.mem_range.mp hi
  obtain ⟨f, hf, h0, h1⟩ := get_features_in_range M hM b hb i hi'
  obtain ⟨v, hv⟩ := lookup_value_some M t.weights ht _ (get_features_in_range M hM b hb)
  obtain ⟨vn, hvn⟩ := board_value_some M hM t.weights ht next_b hn
  obtain ⟨W', hW', hwf⟩ := weights_add_some M t.weights ht i hi' f h0 h1
    (t.alpha * ((reward : F) + vn - v))
  exact ⟨{ t with weights := W' },
    by simp only [hf, hv, hvn, hW', Option.bind_eq_bind, Option.some_bind, Option.pure_def], hwf⟩

theorem take_action_frame {F : Type} [LinearOrderedRing F] (M : Int) (MIN_FLOAT : F)
    (move : board → Int → board × Int) (s : player F) (before : board) (a : action)
    (s' : player F) (h : take_action M MIN_FLOAT move s before = some (a, s')) :
    s'.weights = s.weights ∧ s'.alpha = s.alpha := by
  unfold take_action at h
  simp only [Option.bind_eq_bind, Option.bind_eq_some] at h
  obtain ⟨sel, _, hsel⟩ := h
  split at hsel
  · simp only [Option.pure_def, Option.some.injEq, Prod.mk.injEq] at hsel
    obtain ⟨_, rfl⟩ := hsel
    exact ⟨rfl, rfl⟩
  · simp only [Option.pure_def, Option.some.injEq, Prod.mk.injEq] at hsel
    obtain ⟨_, rfl⟩ := hsel
    exact ⟨rfl, rfl⟩

theorem scores_defined {F : Type} [LinearOrderedRing F] (M : Int) (hM : 1 ≤ M)
    (move : board → Int → board × Int) (s : player F)
    (hW : well_formed M s.weights) (before : board)
    (hmove : ∀ op r c, 0 ≤ (move before op).1 r c) :
    ∃ val : Int → F, ∀ op ∈ [0, 1, 2, 3], (move before op).2 ≠ -1 →
      board_value M s.weights (move before op).1 = some (val op) := by
  refine ⟨fun op => (board_value M s.weights (move before op).1).getD 0, ?_⟩
  intro op _ _
  obtain ⟨v, hv⟩ := board_value_some M hM s.weights hW (move before op).1 (hmove op)
  simp only [hv, Option.getD_some]

theorem getD_lt_of_forall (l : List Nat) (h : ∀ x ∈ l, x < 16) (i : Nat) : l.getD i 0 < 16 := by
  by_cases hi : i < l.length
  · rw [List.getD_eq_getElem _ _ hi]
    exact h _ (List.getElem_mem hi)
  · rw [List.getD_eq_default _ _ (not_lt.mp hi)]
    decide

theorem indexs_cell_lt (k i : Nat) : (indexs.getD k []).getD i 0 < 16 := by
  apply getD_lt_of_forall
  by_cases hk : k < indexs.length
  · rw [List.getD_eq_getElem _ _ hk]
    exact (indexs_shape _ (List.getElem_mem hk)).2
  · rw [List.getD_eq_default _ _ (not_lt.mp hk)]
    intro x hx
    exact absurd hx (List.not_mem_nil x)

theorem get_feature_congr (M : Int) (b1 b2 : board) (idx : List Nat)
    (hidx : ∀ i, idx.getD i 0 < 16)
    (h : ∀ r c, r < 4 → c < 4 → min (b1 r c) (M - 1) = min (b2 r c) (M - 1)) :
    get_feature M b1 idx = get_feature M b2 idx := by
  have hstep : get_feature_step M b1 idx = get_feature_step M b2 idx := by
    funext result i
    rw [get_feature_step_eq, get_feature_step_eq,
      h _ _ (by have := hidx i; omega) (Nat.mod_lt _ (by decide))]
  unfold get_feature
  rw [hstep]

theorem sample_weights_well_formed : well_formed 2 sample_weights := by
  refine ⟨by decide, ?_⟩
  intro w hw
  rw [List.eq_of_mem_replicate hw]
  simp

/-! ## The configuration string -/

theorem take_drop_indexOf (c : Char) (t : List Char) (h : c ∈ t) :
    t.take (t.indexOf c) = t.takeWhile (fun x => x != c) ∧
    t.drop (t.indexOf c + 1) = (t.dropWhile (fun x => x != c)).drop 1 := by
  induction t with
  | nil => exact absurd h (List.not_mem_nil _)
  | cons x rest ih =>
    by_cases hx : x = c
    · subst hx
      simp [List.indexOf_cons_self]
    · have hmem : c ∈ rest := by
        rcases List.mem_cons.mp h with h | h
        · exact absurd h.symm hx
        · exact h
      have hne : (x != c) = true := by simpa using hx
      rw [List.indexOf_cons_ne _ (fun h => hx h), List.take_succ_cons, List.drop_succ_cons,
        List.takeWhile_cons, List.dropWhile_cons, hne]
      simp only [if_true, List.cons.injEq, true_and]
      exact ih hmem

theorem split_pair_eq (t : List Char) (h : Char.ofNat 61 ∈ t) :
    split_pair t = (key_of t, value_of t) := by
  have hlt : t.indexOf (Char.ofNat 61) < t.length := List.indexOf_lt_length.mpr h
  have htd := take_drop_indexOf (Char.ofNat 61) t h
  unfold split_pair key_of value_of
  simp only [hlt, if_true, htd.1, htd.2]

theorem foldl_property_set (f g : List Char → String) (l : List (List Char))
    (m0 : property_map) (k : String) :
    (l.foldl (fun property pair => property_set property (f pair) (g pair)) m0) k
      = match l.reverse.find? (fun t => f t = k) with
        | some t => some (g t)
        | none => m0 k := by
  induction l using List.reverseRecOn with
  | nil => rfl
  | append_singleton l t ih =>
    rw [List.foldl_append, List.reverse_append]
    simp only [List.foldl_cons, List.foldl_nil, List.reverse_cons, List.reverse_nil,
      List.nil_append, List.singleton_append, List.find?_cons, property_set]
    by_cases hk : f t = k
    · simp [hk]
    · have hk' : ¬ k = f t := fun h => hk h.symm
      simp only [hk, hk', decide_False, if_false]
      exact ih

theorem splitOnP_append_of_no_space (pair cs : List Char)
    (h : ∀ c ∈ pair, is_space c = false) :
    (pair ++ cs).splitOnP is_space = (cs.splitOnP is_space).modifyHead (fun t => pair ++ t) := by
  induction pair with
  | nil =>
    cases hs : cs.splitOnP is_space with
    | nil => exact absurd hs (List.splitOnP_ne_nil _ _)
    | cons a t => simp [hs, List.modifyHead]
  | cons x rest ih =>
    have hx : is_space x = false := h x (List.mem_cons_self x rest)
    rw [List.cons_append, List.splitOnP_cons, hx, ih (fun c hc => h c (List.mem_cons_of_mem x hc))]
    cases hs : cs.splitOnP is_space with
    | nil => exact absurd hs (List.splitOnP_ne_nil _ _)
    | cons a t => simp [List.modifyHead]

theorem read_tokens_eq_split (cs pair : List Char) (h : ∀ c ∈ pair, is_space c = false) :
    read_tokens cs pair
      = ((pair.reverse ++ cs).splitOnP is_space).filter (fun t => !t.isEmpty) := by
  induction cs generalizing pair with
  | nil =>
    have hrev : ∀ c ∈ pair.reverse, is_space c = false :=
      fun c hc => h c (List.mem_reverse.mp hc)
    have := splitOnP_append_of_no_space pair.reverse [] hrev
    rw [this]
    cases pair with
    | nil => simp [read_tokens, List.splitOnP_nil, List.modifyHead]
    | cons x rest => simp [read_tokens, List.splitOnP_nil, List.modifyHead]
  | cons c rest ih =>
    have hrev : ∀ c ∈ pair.reverse, is_space c = false :=
      fun c hc => h c (List.mem_reverse.mp hc)
    by_cases hc : is_space c = true
    · rw [splitOnP_append_of_no_space pair.reverse (c :: rest) hrev, List.splitOnP_cons,
        if_pos hc]
      have ih0 := ih [] (fun c hc => absurd hc (List.not_mem_nil c))
      simp only [List.reverse_nil, List.nil_append] at ih0
      cases pair with
      | nil => simp [read_tokens, hc, ih0, List.modifyHead]
      | cons x xs => simp [read_tokens, hc, ih0, List.modifyHead]
    · have hc' : is_space c = false := by simpa using hc
      have hih := ih (c :: pair) (fun x hx => by
        rcases List.mem_cons.mp hx with rfl | hx
        · exact hc'
        · exact h x hx)
      simp only [read_tokens, hc', Bool.false_eq_true, if_false]
      rw [hih]
      simp
theorem foldl_congr_mem {α β : Type} (f g : β → α → β) (l : List α)
    (h : ∀ b, ∀ a ∈ l, f b a = g b a) (b : β) : l.foldl f b = l.foldl g b := by
  induction l generalizing b with
  | nil => rfl
  | cons a t ih =>
    rw [List.foldl_cons, List.foldl_cons, h b a (List.mem_cons_self a t)]
    exact ih (fun b a ha => h b a (List.mem_cons_of_mem _ ha)) _

theorem token_eq_key_value (t : List Char) (h : Char.ofNat 61 ∈ t) :
    t = (key_of t).data ++ Char.ofNat 61 :: (value_of t).data := by
  unfold key_of value_of
  induction t with
  | nil => exact absurd h (List.not_mem_nil _)
  | cons x rest ih =>
    by_cases hx : x = Char.ofNat 61
    · subst hx
      simp
    · have hmem : Char.ofNat 61 ∈ rest := by
        rcases List.mem_cons.mp h with h | h
        · exact absurd h.symm hx
        · exact h
      have hne : (x != Char.ofNat 61) = true := by simpa using hx
      have := ih hmem
      simp only [List.takeWhile_cons, List.dropWhile_cons, hne, if_true, List.cons_append,
        List.cons.injEq, true_and]
      exact this

theorem key_has_no_eq (t : List Char) : Char.ofNat 61 ∈ (key_of t).data → False := by
  intro h
  have := List.mem_takeWhile_imp h
  simp at this

/-! ## The weight file -/

theorem size_bytes_length (n : Nat) : (size_bytes n).length = 8 := by simp [size_bytes]

theorem bytes_size_size_bytes (n : Nat) (hn : n < 2 ^ 64) (rest : List Nat) :
    bytes_size (size_bytes n ++ rest) = n := by
  unfold bytes_size
  rw [List.take_left' (size_bytes_length n)]
  simp only [size_bytes, List.range_succ, List.range_zero, List.nil_append, List.cons_append,
    List.map_cons, List.map_nil, List.foldr_cons, List.foldr_nil]
  norm_num
  omega

theorem read_floats_write {F : Type} (float_bytes : F → List Nat) (bytes_float : List Nat → F)
    (w : List F)
    (hraw : ∀ x ∈ w, (float_bytes x).length = 4 ∧ bytes_float (float_bytes x) = x)
    (rest : List Nat) :
    read_floats bytes_float w.length ((w.map float_bytes).flatten ++ rest) = some (w, rest) := by
  induction w with
  | nil => rfl
  | cons x t ih =>
    obtain ⟨hlen, hback⟩ := hraw x (List.mem_cons_self x t)
    have ih' := ih (fun y hy => hraw y (List.mem_cons_of_mem x hy))
    simp only [List.map_cons, List.flatten_cons, List.length_cons, List.append_assoc, read_floats]
    have hge : ¬ (float_bytes x ++ ((t.map float_bytes).flatten ++ rest)).length < 4 := by
      rw [List.length_append, hlen]; omega
    rw [if_neg hge, List.drop_left' hlen, List.take_left' hlen, ih', hback]
    rfl

theorem read_weight_write {F : Type} (float_bytes : F → List Nat) (bytes_float : List Nat → F)
    (w : List F) (hw : w.length < 2 ^ 64)
    (hraw : ∀ x ∈ w, (float_bytes x).length = 4 ∧ bytes_float (float_bytes x) = x)
    (rest : List Nat) :
    read_weight bytes_float (write_weight float_bytes w ++ rest) = some (w, rest) := by
  unfold read_weight write_weight
  have hge : ¬ (size_bytes w.length ++ (w.map float_bytes).flatten ++ rest).length < 8 := by
    rw [List.append_assoc, List.length_append, size_bytes_length]; omega
  rw [if_neg hge, List.append_assoc, bytes_size_size_bytes _ hw,
    List.drop_left' (size_bytes_length _)]
  exact read_floats_write float_bytes bytes_float w hraw rest

theorem read_weights_write {F : Type} (float_bytes : F → List Nat) (bytes_float : List Nat → F)
    (W : List (List F)) (hw : ∀ w ∈ W, w.length < 2 ^ 64)
    (hraw : ∀ w ∈ W, ∀ x ∈ w, (float_bytes x).length = 4 ∧ bytes_float (float_bytes x) = x) :
    read_weights bytes_float W.length ((W.map (write_weight float_bytes)).flatten) = some W := by
  induction W with
  | nil => rfl
  | cons w t ih =>
    simp only [List.map_cons, List.flatten_cons, List.length_cons, read_weights]
    rw [read_weight_write float_bytes bytes_float w (hw w (List.mem_cons_self w t))
      (hraw w (List.mem_cons_self w t))]
    simp only [Option.some_bind]
    rw [ih (fun v hv => hw v (List.mem_cons_of_mem w hv))
      (fun v hv => hraw v (List.mem_cons_of_mem w hv))]
    rfl

/-! ## The construction -/

theorem zero_store_eq {F : Type} [Zero F] (n : Nat) :
    (List.range TUPLE_NUM).foldl (fun weights _ => weights ++ [(weight_new n : List F)]) []
      = List.replicate TUPLE_NUM (List.replicate n 0) := by
  rw [foldl_push_eq_map (fun _ => (weight_new n : List F))]
  simp [TUPLE_NUM, weight_new]

theorem feature_num_eq (M : Int) : ((M * M * M * M * M * M).toNat : Int) = M ^ 6 := by
  have h : M * M * M * M * M * M = (M * M * M) ^ 2 := by ring
  rw [Int.toNat_of_nonneg (by rw [h]; exact sq_nonneg _)]
  ring

theorem foldl_add_zero {F : Type} [LinearOrderedRing F] (l : List Nat) :
    l.foldl (fun (v : F) _ => v + 0) 0 = 0 := by
  induction l with
  | nil => rfl
  | cons a t ih => rw [List.foldl_cons, add_zero]; exact ih

theorem zero_store_value {F : Type} [LinearOrderedRing F] (M : Int) (hM : 1 ≤ M) (n : Nat)
    (hn : (n : Int) = M ^ 6) (b : board) (hb : ∀ r c, 0 ≤ b r c) :
    board_value M (List.replicate TUPLE_NUM (List.replicate n (0 : F))) b = some 0 := by
  have h := lookup_value_eq_some (List.replicate TUPLE_NUM (List.replicate n (0 : F)))
    (get_features M b) (fun _ => 0) (by
      intro i hi
      obtain ⟨f, hf, h0, h1⟩ := get_features_in_range M hM b hb i hi
      refine ⟨f, hf, ?_⟩
      have hlt : f.toNat < n := by omega
      simp [weights_get, weight_get, h0, List.getElem?_replicate, hi, hlt])
  unfold board_value
  rw [h, foldl_add_zero]

theorem player_ctor_cases {F : Type} [Zero F] (M : Int) (alpha_default : F)
    (stod_int : String → Option Int) (stod_float : String → Option F)
    (bytes_float : List Nat → F)
    (open_file : String → Option (List Nat)) (args : String)
    (hload : agent_ctor ("name=player " ++ args) "load" = none) :
    (player_ctor M alpha_default stod_int stod_float bytes_float open_file args
        = Except.error ctor_failure.conversion ∧
      ((∃ value, agent_ctor ("name=player " ++ args) "seed" = some value ∧
          stod_int value = none) ∨
        (∃ value, agent_ctor ("name=player " ++ args) "alpha" = some value ∧
          stod_float value = none))) ∨
    ∃ alpha, player_ctor M alpha_default stod_int stod_float bytes_float open_file args
        = Except.ok (player.mk
            (List.replicate TUPLE_NUM (List.replicate (M * M * M * M * M * M).toNat 0)) []
            alpha) ∧
      (∀ value, agent_ctor ("name=player " ++ args) "seed" = some value →
        stod_int value ≠ none) ∧
      (∀ value, agent_ctor ("name=player " ++ args) "alpha" = some value →
        stod_float value ≠ none) := by
  unfold player_ctor
  simp only [hload, zero_store_eq]
  cases hseed : agent_ctor ("name=player " ++ args) "seed" with
  | some value =>
    cases hint : stod_int value with
    | none =>
      left
      exact ⟨by simp [numeric, hint, Except.map, Except.bind], Or.inl ⟨value, rfl, hint⟩⟩
    | some n =>
      cases halpha : agent_ctor ("name=player " ++ args) "alpha" with
      | some text =>
        cases hfloat : stod_float text with
        | none =>
          left
          exact ⟨by simp [numeric, hint, hfloat, Except.map, Except.bind],
            Or.inr ⟨text, rfl, hfloat⟩⟩
        | some x =>
          right
          refine ⟨x, by simp [numeric, hint, hfloat, Except.map, Except.bind], ?_, ?_⟩
          · intro v hv
            rw [← Option.some.inj hv, hint]
            simp
          · intro v hv
            rw [← Option.some.inj hv, hfloat]
            simp
      | none =>
        right
        refine ⟨alpha_default, by simp [numeric, hint, Except.map, Except.bind], ?_, ?_⟩
        · intro v hv
          rw [← Option.some.inj hv, hint]
          simp
        · intro v hv
          exact absurd hv (by simp)
  | none =>
    cases halpha : agent_ctor ("name=player " ++ args) "alpha" with
    | some text =>
      cases hfloat : stod_float text with
      | none =>
        left
        exact ⟨by simp [numeric, hfloat, Except.bind], Or.inr ⟨text, rfl, hfloat⟩⟩
      | some x =>
        right
        refine ⟨x, by simp [numeric, hfloat, Except.bind], ?_, ?_⟩
        · intro v hv
          exact absurd hv (by simp)
        · intro v hv
          rw [← Option.some.inj hv, hfloat]
          simp
    | none =>
      right
      refine ⟨alpha_default, by simp [Except.bind], ?_, ?_⟩
      · intro v hv
        exact absurd hv (by simp)
      · intro v hv
        exact absurd hv (by simp)

/-! ## The backward sweep -/

theorem sweep_fixed_record {F : Type} [LinearOrderedRing F] (M : Int) (E : List state)
    (l : List Nat) :
    ∀ s1 : player F, s1.episode = E →
      l.foldlM (fun (s : player F) i => do
          let step ← s.episode[i]?
          let step_next ← s.episode[i + 1]?
          train_weights M s step.after step_next.after step_next.reward) s1
      = l.foldlM (fun (s : player F) i =>
          (E[i]?).bind fun step => (E[i + 1]?).bind fun step_next =>
            train_weights M s step.after step_next.after step_next.reward) s1 := by
  induction l with
  | nil => intro s1 _; rfl
  | cons i t ih =>
    intro s1 h1
    rw [List.foldlM_cons, List.foldlM_cons]
    simp only [h1, Option.bind_eq_bind]
    apply option_bind_congr
    intro s2 hs2
    apply ih
    cases hi : E[i]? with
    | none => rw [hi] at hs2; exact absurd hs2 (by simp)
    | some a =>
      cases hj : E[i + 1]? with
      | none => rw [hi, hj] at hs2; exact absurd hs2 (by simp)
      | some b =>
        rw [hi, hj] at hs2
        simp only [Option.some_bind] at hs2
        rw [(train_weights_frame M s1 s2 _ _ _ hs2).1, h1]

theorem sweep_eq_pairs {F : Type} [LinearOrderedRing F] (M : Int) (E : List state) :
    ∀ s1 : player F,
      (List.range (E.length - 1)).reverse.foldlM (fun (s : player F) i =>
          (E[i]?).bind fun step => (E[i + 1]?).bind fun step_next =>
            train_weights M s step.after step_next.after step_next.reward) s1
      = (E.zip E.tail).reverse.foldlM
          (fun (s : player F) p => train_weights M s p.1.after p.2.after p.2.reward) s1 := by
  induction E with
  | nil => intro s1; rfl
  | cons e0 T ih =>
    intro s1
    cases T with
    | nil => rfl
    | cons e1 T' =>
      have hlen : (e0 :: e1 :: T').length - 1 = ((e1 :: T').length - 1) + 1 := by simp
      rw [hlen, List.range_succ_eq_map, List.reverse_cons, List.foldlM_append,
        ← List.map_reverse, List.foldlM_map]
      simp only [List.tail_cons, List.zip_cons_cons, List.reverse_cons, List.foldlM_append]
      have ih' := ih s1
      simp only [List.tail_cons, List.getElem?_cons_succ] at ih'
      simp only [Nat.succ_eq_add_one, List.getElem?_cons_succ]
      rw [ih']
      apply option_bind_congr
      intro s2 _
      simp [List.foldlM_cons]

theorem last_index_eq (n : Nat) (h0 : 0 < n) (hn : n < 2 ^ 64) : last_index n = n - 1 := by
  unfold last_index
  have h : n + 2 ^ 64 - 1 = (n - 1) + 2 ^ 64 := by omega
  rw [h, Nat.add_mod_right, Nat.mod_eq_of_lt (by omega)]

theorem first_index_eq (n : Nat) (h0 : 0 < n) (hn : n ≤ 2 ^ 31 + 1) :
    (first_index n + 1).toNat = n - 1 := by
  unfold first_index
  norm_num at hn ⊢
  split_ifs <;> omega

theorem first_index_le (n : Nat) (hn : n < 2 ^ 64) :
    (first_index n + 1).toNat ≤ n - 1 := by
  unfold first_index
  norm_num at hn ⊢
  split_ifs <;> omega

theorem close_episode_indices {F : Type} [LinearOrderedRing F] (M : Int) (s : player F)
    (hne : s.episode ≠ []) (hsize : s.episode.length < 2 ^ 64) :
    close_episode M s
      = (train_weights_terminal M s (s.episode.getLast hne).after).bind
          (fun s1 => (List.range (first_index s.episode.length + 1).toNat).reverse.foldlM
            (fun (t : player F) i =>
              (s.episode[i]?).bind fun step => (s.episode[i + 1]?).bind fun step_next =>
                train_weights M t step.after step_next.after step_next.reward) s1) := by
  have hpos : 0 < s.episode.length := List.length_pos.mpr hne
  have hlast : s.episode[last_index s.episode.length]? = some (s.episode.getLast hne) := by
    rw [last_index_eq _ hpos hsize, List.getLast_eq_getElem,
      List.getElem?_eq_getElem (by omega)]
  unfold close_episode
  simp only [hlast, Option.map_some', Option.bind_eq_bind, Option.some_bind]
  apply option_bind_congr
  intro s1 hs1
  have hep := (train_weights_terminal_frame M s s1 _ hs1).1
  rw [hep]
  have h1 := sweep_fixed_record M s.episode
    (List.range (first_index s.episode.length + 1).toNat).reverse s1 hep
  simp only [Option.bind_eq_bind] at h1
  exact h1

theorem close_episode_eq {F : Type} [LinearOrderedRing F] (M : Int) (s : player F)
    (hne : s.episode ≠ []) (hsize : s.episode.length ≤ 2 ^ 31 + 1) :
    close_episode M s
      = (train_weights_terminal M s (s.episode.getLast hne).after).bind
          (fun s1 => (s.episode.zip s.episode.tail).reverse.foldlM
            (fun (t : player F) p => train_weights M t p.1.after p.2.after p.2.reward) s1) := by
  have hpos : 0 < s.episode.length := List.length_pos.mpr hne
  rw [close_episode_indices M s hne (lt_of_le_of_lt hsize (by norm_num)),
    first_index_eq _ hpos hsize]
  apply option_bind_congr
  intro s1 _
  exact sweep_eq_pairs M s.episode s1

/-! ## The frame of training -/

theorem weights_add_inv {F : Type} [Add F] (W W' : List (List F)) (i : Nat) (k : Int) (d : F)
    (h : weights_add W i k d = some W') :
    ∃ w x, W[i]? = some w ∧ 0 ≤ k ∧ w[k.toNat]? = some x ∧
      W' = W.set i (w.set k.toNat (x + d)) := by
  unfold weights_add at h
  simp only [Option.bind_eq_bind, Option.bind_eq_some, Option.pure_def, Option.some.injEq] at h
  obtain ⟨w, hw, x, hx, rfl⟩ := h
  unfold weight_get at hx
  by_cases hk : 0 ≤ k
  · rw [if_pos hk] at hx
    exact ⟨w, x, hw, hk, hx, rfl⟩
  · rw [if_neg hk] at hx
    exact absurd hx (by simp)

theorem weights_add_spec {F : Type} [Add F] (W W' : List (List F)) (i : Nat) (k : Int) (d : F)
    (h : weights_add W i k d = some W') :
    W'.length = W.length ∧
    (∀ p : Nat, (W'[p]?).map List.length = (W[p]?).map List.length) ∧
    (∀ p k', ¬ (p = i ∧ k' = k) → weights_get W' p k' = weights_get W p k') ∧
    ∃ x, weights_get W i k = some x ∧ weights_get W' i k = some (x + d) := by
  obtain ⟨w, x, hw, hk, hx, rfl⟩ := weights_add_inv W W' i k d h
  have hi : i < W.length := (List.getElem?_eq_some_iff.mp hw).1
  have hkl : k.toNat < w.length := (List.getElem?_eq_some_iff.mp hx).1
  refine ⟨List.length_set _ _ _, ?_, ?_, x, ?_, ?_⟩
  · intro p
    by_cases hp : i = p
    · subst hp
      rw [List.getElem?_set_self hi, hw]
      simp
    · rw [List.getElem?_set_ne hp]
  · intro p k' hne
    unfold weights_get
    by_cases hp : i = p
    · subst hp
      rw [List.getElem?_set_self hi, hw]
      simp only [Option.bind_eq_bind, Option.some_bind]
      unfold weight_get
      by_cases hk' : 0 ≤ k'
      · rw [if_pos hk', if_pos hk']
        have hkk : k.toNat ≠ k'.toNat := by
          intro heq
          apply hne
          refine ⟨rfl, ?_⟩
          omega
        rw [List.getElem?_set_ne hkk]
      · rw [if_neg hk', if_neg hk']
    · rw [List.getElem?_set_ne hp]
  · unfold weights_get weight_get
    simp [hw, hk, hx]
  · unfold weights_get weight_get
    rw [List.getElem?_set_self hi]
    simp [hk, List.getElem?_set_self hkl]

theorem same_outside_refl {F : Type} (touched : Nat → Int → Prop) (W : List (List F)) :
    same_outside touched W W :=
  ⟨rfl, fun _ => rfl, fun _ _ _ => rfl⟩

theorem same_outside_trans {F : Type} (touched : Nat → Int → Prop) (W1 W2 W3 : List (List F))
    (h12 : same_outside touched W1 W2) (h23 : same_outside touched W2 W3) :
    same_outside touched W1 W3 :=
  ⟨h23.1.trans h12.1, fun p => (h23.2.1 p).trans (h12.2.1 p),
    fun p k hk => (h23.2.2 p k hk).trans (h12.2.2 p k hk)⟩

theorem same_outside_mono {F : Type} (t1 t2 : Nat → Int → Prop) (W W' : List (List F))
    (hsub : ∀ p k, t1 p k → t2 p k) (h : same_outside t1 W W') : same_outside t2 W W' :=
  ⟨h.1, h.2.1, fun p k hk => h.2.2 p k (fun h1 => hk (hsub p k h1))⟩

theorem foldlM_invariant_mem {α β : Type} (f : β → α → Option β) (P : β → Prop)
    (l : List α) (hstep : ∀ b a b', a ∈ l → P b → f b a = some b' → P b') :
    ∀ (b b' : β), P b → l.foldlM f b = some b' → P b' := by
  induction l with
  | nil =>
    intro b b' hb h
    have hbb : b = b' := Option.some.inj h
    exact hbb ▸ hb
  | cons a t ih =>
    intro b b' hb h
    rw [List.foldlM_cons] at h
    cases hfa : f b a with
    | none => rw [hfa] at h; exact absurd h (by simp)
    | some b1 =>
      rw [hfa] at h
      exact ih (fun b a b' ha => hstep b a b' (List.mem_cons_of_mem _ ha)) b1 b'
        (hstep b a b1 (List.mem_cons_self a t) hb hfa) h

theorem train_weights_terminal_touches {F : Type} [LinearOrderedRing F] (M : Int)
    (s s' : player F) (b : board) (h : train_weights_terminal M s b = some s') :
    same_outside (fun p k => p < TUPLE_NUM ∧ k = get_feature M b (indexs.getD p []))
      s.weights s'.weights := by
  unfold train_weights_terminal at h
  refine foldlM_invariant_mem _
    (fun t : player F => same_outside
      (fun p k => p < TUPLE_NUM ∧ k = get_feature M b (indexs.getD p [])) s.weights t.weights)
    _ ?_ s s' (same_outside_refl _ _) h
  intro t i t' hi ht hstep
  have hi' : i < TUPLE_NUM := List.mem_range.mp hi
  simp only [Option.bind_eq_bind, Option.bind_eq_some, Option.pure_def, Option.some.injEq]
    at hstep
  obtain ⟨f, hf, v, _, W', hW', rfl⟩ := hstep
  rw [get_features_getElem? M b i hi'] at hf
  have hf' : get_feature M b (indexs.getD i []) = f := Option.some.inj hf
  obtain ⟨h1, h2, h3, _⟩ := weights_add_spec _ _ _ _ _ hW'
  refine same_outside_trans _ _ _ _ ht ⟨h1, h2, ?_⟩
  intro p k hk
  exact h3 p k (fun hpk => hk ⟨hpk.1 ▸ hi', by rw [hpk.1, hpk.2, hf']⟩)

theorem train_weights_touches {F : Type} [LinearOrderedRing F] (M : Int)
    (s s' : player F) (b next_b : board) (reward : Int)
    (h : train_weights M s b next_b reward = some s') :
    same_outside (fun p k => p < TUPLE_NUM ∧ k = get_feature M b (indexs.getD p []))
      s.weights s'.weights := by
  unfold train_weights at h
  refine foldlM_invariant_mem _
    (fun t : player F => same_outside
      (fun p k => p < TUPLE_NUM ∧ k = get_feature M b (indexs.getD p [])) s.weights t.weights)
    _ ?_ s s' (same_outside_refl _ _) h
  intro t i t' hi ht hstep
  have hi' : i < TUPLE_NUM := List.mem_range.mp hi
  simp only [Option.bind_eq_bind, Option.bind_eq_some, Option.pure_def, Option.some.injEq]
    at hstep
  obtain ⟨f, hf, vn, _, v, _, W', hW', rfl⟩ := hstep
  rw [get_features_getElem? M b i hi'] at hf
  have hf' : get_feature M b (indexs.getD i []) = f := Option.some.inj hf
  obtain ⟨h1, h2, h3, _⟩ := weights_add_spec _ _ _ _ _ hW'
  refine same_outside_trans _ _ _ _ ht ⟨h1, h2, ?_⟩
  intro p k hk
  exact h3 p k (fun hpk => hk ⟨hpk.1 ▸ hi', by rw [hpk.1, hpk.2, hf']⟩)

theorem close_episode_touches {F : Type} [LinearOrderedRing F] (M : Int) (s s' : player F)
    (hne : s.episode ≠ []) (hsize : s.episode.length < 2 ^ 64)
    (h : close_episode M s = some s') :
    s'.episode = s.episode ∧ s'.alpha = s.alpha ∧
    same_outside (fun p k => p < TUPLE_NUM ∧
        ∃ step ∈ s.episode, k = get_feature M step.after (indexs.getD p []))
      s.weights s'.weights := by
  rw [close_episode_indices M s hne hsize] at h
  simp only [Option.bind_eq_some] at h
  obtain ⟨s1, hterm, hsweep⟩ := h
  have hframe1 := train_weights_terminal_frame M s s1 _ hterm
  have htouch1 := train_weights_terminal_touches M s s1 _ hterm
  have hinv := foldlM_invariant_mem
    (fun (t : player F) (i : Nat) =>
      (s.episode[i]?).bind fun step => (s.episode[i + 1]?).bind fun step_next =>
        train_weights M t step.after step_next.after step_next.reward)
    (fun t : player F => t.episode = s.episode ∧ t.alpha = s.alpha ∧
      same_outside (fun p k => p < TUPLE_NUM ∧
        ∃ step ∈ s.episode, k = get_feature M step.after (indexs.getD p []))
      s.weights t.weights)
    (List.range (first_index s.episode.length + 1).toNat).reverse
    (by
      intro t i t' _ ht hstep
      simp only [Option.bind_eq_some] at hstep
      obtain ⟨step, hstep_mem, step_next, _, htrain⟩ := hstep
      have hp1 : step ∈ s.episode := List.getElem?_mem hstep_mem
      have hfr := train_weights_frame M t t' _ _ _ htrain
      have hto := train_weights_touches M t t' _ _ _ htrain
      refine ⟨hfr.1.trans ht.1, hfr.2.trans ht.2.1, same_outside_trans _ _ _ _ ht.2.2 ?_⟩
      exact same_outside_mono _ _ _ _ (fun q k hq => ⟨hq.1, step, hp1, hq.2⟩) hto)
    s1 s'
    ⟨hframe1.1, hframe1.2, same_outside_mono _ _ _ _
      (fun q k hq => ⟨hq.1, _, List.getLast_mem hne, hq.2⟩) htouch1⟩
    hsweep
  exact hinv

theorem close_episode_some {F : Type} [LinearOrderedRing F] (M : Int) (hM : 1 ≤ M)
    (s : player F) (hW : well_formed M s.weights) (hne : s.episode ≠ [])
    (hsize : s.episode.length < 2 ^ 64)
    (hb : ∀ step ∈ s.episode, ∀ r c, 0 ≤ step.after r c) :
    ∃ s', close_episode M s = some s' ∧ well_formed M s'.weights := by
  rw [close_episode_indices M s hne hsize]
  obtain ⟨s1, hs1, hW1⟩ := train_weights_terminal_some M hM s hW _
    (hb _ (List.getLast_mem hne))
  rw [hs1, Option.some_bind]
  refine foldlM_some_of_invariant _ (fun t : player F => well_formed M t.weights) _ ?_ s1 hW1
  intro t i hi ht
  have hik : i < (first_index s.episode.length + 1).toNat :=
    List.mem_range.mp (List.mem_reverse.mp hi)
  have hle := first_index_le s.episode.length hsize
  have h0 : i < s.episode.length := by omega
  have h1 : i + 1 < s.episode.length := by omega
  rw [List.getElem?_eq_getElem h0, List.getElem?_eq_getElem h1]
  rw [Option.some_bind, Option.some_bind]
  exact train_weights_some M hM t ht _ _ (hb _ (List.getElem_mem h0))
    (hb _ (List.getElem_mem h1)) _

theorem two_steps_nonneg : ∀ step ∈ two_steps, ∀ r c, 0 ≤ step.after r c := by
  intro step hstep r c
  simp only [two_steps, List.mem_cons, List.mem_singleton, List.not_mem_nil, or_false]
    at hstep
  rcases hstep with rfl | rfl
  · exact Int.ofNat_nonneg _
  · show 0 ≤ dead_board r c
    unfold dead_board
    split_ifs <;> decide

theorem dead_board_nonneg : ∀ r c, 0 ≤ dead_board r c := by
  intro r c
  unfold dead_board
  split_ifs <;> decide

/-! ## The value after the terminal update -/

theorem set_of_getElem? {α : Type} (l : List α) (i : Nat) (a : α) (h : l[i]? = some a) :
    l.set i a = l := by
  apply List.ext_getElem?
  intro j
  rw [List.getElem?_set]
  by_cases hij : i = j
  · subst hij
    rw [if_pos rfl, if_pos (List.getElem?_eq_some_iff.mp h).1, h]
  · rw [if_neg hij]

theorem weights_add_zero {F : Type} [LinearOrderedRing F] (W W' : List (List F)) (i : Nat)
    (k : Int) (h : weights_add W i k 0 = some W') : W' = W := by
  obtain ⟨w, x, hw, _, hx, rfl⟩ := weights_add_inv W W' i k 0 h
  rw [add_zero, set_of_getElem? w _ x hx, set_of_getElem? W i w hw]

theorem sum_range_succ_foldl {F : Type} [LinearOrderedRing F] (g : Nat → F) (n : Nat) :
    (List.range (n + 1)).foldl (fun v j => v + g j) 0
      = (List.range n).foldl (fun v j => v + g j) 0 + g n := by
  rw [List.range_succ, List.foldl_append]
  rfl

theorem sum_update_foldl {F : Type} [LinearOrderedRing F] (x : Nat → F) (i : Nat) (d : F)
    (n : Nat) :
    (List.range n).foldl (fun v j => v + (if j = i then x i + d else x j)) 0
      = (List.range n).foldl (fun v j => v + x j) 0 + (if i < n then d else 0) := by
  induction n with
  | zero => simp
  | succ n ih =>
    rw [sum_range_succ_foldl, sum_range_succ_foldl, ih]
    by_cases hn : n = i
    · subst hn
      simp only [if_pos rfl, lt_irrefl, if_false, add_zero, Nat.lt_succ_self, if_true]
      rw [add_assoc]
    · rw [if_neg hn]
      by_cases hlt : i < n
      · rw [if_pos hlt, if_pos (Nat.lt_succ_of_lt hlt)]
        rw [add_right_comm]
      · have hnlt : ¬ i < n + 1 := by omega
        rw [if_neg hlt, if_neg hnlt, add_zero, add_zero]

theorem lookup_fold_defined {F : Type} [Zero F] [Add F] (W : List (List F)) (feats : List Int)
    (l : List Nat) :
    ∀ (v0 v : F), l.foldlM (fun v_s i => do
        let f ← feats[i]?
        let x ← weights_get W i f
        pure (v_s + x)) v0 = some v →
      ∀ i ∈ l, ∃ f x, feats[i]? = some f ∧ weights_get W i f = some x := by
  induction l with
  | nil => intro _ _ _ i hi; exact absurd hi (List.not_mem_nil i)
  | cons a t ih =>
    intro v0 v h i hi
    rw [List.foldlM_cons] at h
    simp only [Option.bind_eq_bind, Option.bind_eq_some] at h
    obtain ⟨v1, ⟨f, hf, x, hx, _⟩, hrest⟩ := h
    rcases List.mem_cons.mp hi with rfl | hi
    · exact ⟨f, x, hf, hx⟩
    · exact ih v1 v hrest i hi

theorem lookup_value_defined {F : Type} [Zero F] [Add F] (W : List (List F))
    (feats : List Int) (v : F) (h : lookup_value W feats = some v) :
    ∀ j, j < TUPLE_NUM → ∃ f, feats[j]? = some f ∧
      weights_get W j f = some ((weights_get W j ((feats[j]?).getD 0)).getD 0) := by
  intro j hj
  obtain ⟨f, x, hf, hx⟩ :=
    lookup_fold_defined W feats (List.range TUPLE_NUM) 0 v h j (List.mem_range.mpr hj)
  exact ⟨f, hf, by rw [hf, Option.getD_some, hx, Option.getD_some]⟩

theorem lookup_value_add_of_defined {F : Type} [LinearOrderedRing F] (W W' : List (List F))
    (feats : List Int) (v : F) (hv : lookup_value W feats = some v) (i : Nat)
    (hi : i < TUPLE_NUM) (fi : Int) (hfi : feats[i]? = some fi) (d : F)
    (hadd : weights_add W i fi d = some W') :
    lookup_value W' feats = some (v + d) := by
  have hx := lookup_value_defined W feats v hv
  have hval := lookup_value_eq_some W feats _ hx
  rw [hv] at hval
  have hveq := Option.some.inj hval
  obtain ⟨_, _, hother, y, hy, hy'⟩ := weights_add_spec W W' i fi d hadd
  have hx' : ∀ j, j < TUPLE_NUM → ∃ f, feats[j]? = some f ∧
      weights_get W' j f = some
        (if j = i then (weights_get W i ((feats[i]?).getD 0)).getD 0 + d
          else (weights_get W j ((feats[j]?).getD 0)).getD 0) := by
    intro j hj
    obtain ⟨f, hf1, hf2⟩ := hx j hj
    refine ⟨f, hf1, ?_⟩
    by_cases hji : j = i
    · subst hji
      rw [if_pos rfl]
      rw [hfi] at hf1
      have hfeq : fi = f := Option.some.inj hf1
      subst hfeq
      rw [hy', hfi, Option.getD_some, hy, Option.getD_some]
    · rw [if_neg hji, hother j f (fun h => hji h.1)]
      exact hf2
  rw [lookup_value_eq_some W' feats _ hx', hveq]
  have := sum_update_foldl
    (fun j => (weights_get W j ((feats[j]?).getD 0)).getD 0) i d TUPLE_NUM
  simp only [if_pos hi] at this
  rw [← this]

theorem shrink_step {F : Type} [LinearOrderedRing F] (a w : F) :
    w + a * (0 - w) = (1 - a) * w := by
  rw [zero_sub, mul_neg, sub_mul, one_mul]
  exact (sub_eq_add_neg _ _).symm

theorem terminal_step_of_some {F : Type} [LinearOrderedRing F] (M : Int) (b : board)
    (t t' : player F) (n : Nat) (hn : n < TUPLE_NUM)
    (h : ((get_features M b)[n]?).bind (fun f =>
          (lookup_value t.weights (get_features M b)).bind (fun v =>
            (weights_add t.weights n f (t.alpha * (0 - v))).bind (fun weights =>
              some { t with weights := weights }))) = some t') :
    ∃ w, lookup_value t.weights (get_features M b) = some w ∧ t'.alpha = t.alpha ∧
      lookup_value t'.weights (get_features M b) = some ((1 - t.alpha) * w) ∧
      (w = 0 → t' = t) := by
  simp only [Option.bind_eq_some, Option.some.injEq] at h
  obtain ⟨f, hf, w, hw, W', hadd, rfl⟩ := h
  refine ⟨w, hw, rfl, ?_, ?_⟩
  · rw [lookup_value_add_of_defined t.weights W' (get_features M b) w hw n hn f hf _ hadd,
      shrink_step]
  · intro hw0
    rw [hw0, sub_zero, mul_zero] at hadd
    rw [weights_add_zero t.weights W' n f hadd]

theorem terminal_prefix_of_some {F : Type} [LinearOrderedRing F] (M : Int)
    (s : player F) (b : board) (v : F)
    (hv : lookup_value s.weights (get_features M b) = some v) (n : Nat)
    (hn : n ≤ TUPLE_NUM) :
    ∀ t, (List.range n).foldlM
        (fun (s : player F) i =>
          ((get_features M b)[i]?).bind (fun f =>
            (lookup_value s.weights (get_features M b)).bind (fun v =>
              (weights_add s.weights i f (s.alpha * (0 - v))).bind (fun weights =>
                some { s with weights := weights })))) s = some t →
      t.alpha = s.alpha ∧
      lookup_value t.weights (get_features M b) = some ((1 - s.alpha) ^ n * v) ∧
      (v = 0 → t = s) := by
  induction n with
  | zero =>
    intro t ht
    have hts : s = t := Option.some.inj ht
    subst hts
    exact ⟨rfl, by rw [pow_zero, one_mul]; exact hv, fun _ => rfl⟩
  | succ n ih =>
    intro t' ht'
    rw [List.range_succ, List.foldlM_append] at ht'
    simp only [Option.bind_eq_bind, Option.bind_eq_some, List.foldlM_cons, List.foldlM_nil,
      Option.pure_def] at ht'
    obtain ⟨t, ht, t1, hstep, ht1⟩ := ht'
    have ht1' : t1 = t' := Option.some.inj ht1
    subst ht1'
    obtain ⟨htα, htv, htfix⟩ := ih (Nat.le_of_succ_le hn) t ht
    have hstep' : ((get_features M b)[n]?).bind (fun f =>
          (lookup_value t.weights (get_features M b)).bind (fun v =>
            (weights_add t.weights n f (t.alpha * (0 - v))).bind (fun weights =>
              some { t with weights := weights }))) = some t1 := by
      simp only [Option.bind_eq_some]
      exact hstep
    obtain ⟨w, hw, hα', hv', hfix'⟩ := terminal_step_of_some M b t t1 n hn hstep'
    rw [htv] at hw
    have hweq : (1 - s.alpha) ^ n * v = w := Option.some.inj hw
    subst hweq
    refine ⟨hα'.trans htα, ?_, ?_⟩
    · rw [hv', htα, pow_succ', mul_assoc]
    · intro hv0
      rw [hfix' (by rw [hv0, mul_zero]), htfix hv0]

theorem train_weights_terminal_eq_fold {F : Type} [LinearOrderedRing F] (M : Int)
    (s : player F) (b : board) :
    train_weights_terminal M s b
      = (List.range TUPLE_NUM).foldlM
        (fun (s : player F) i =>
          ((get_features M b)[i]?).bind (fun f =>
            (lookup_value s.weights (get_features M b)).bind (fun v =>
              (weights_add s.weights i f (s.alpha * (0 - v))).bind (fun weights =>
                some { s with weights := weights })))) s := rfl

/-! ## The selector above the sentinel -/

/-- Above the sentinel the selector breaks ties towards the lower number:
when the greatest score of the legal directions is greater than `MIN_FLOAT`,
`take_action` returns the lowest-numbered legal direction that attains it. -/
theorem take_action_tie_break_above_sentinel {F : Type} [LinearOrderedRing F] (M : Int) (MIN_FLOAT : F)
    (move : board → Int → board × Int) (s : player F) (before : board) (val : Int → F)
    (hval : ∀ op ∈ [0, 1, 2, 3], (move before op).2 ≠ -1 →
      board_value M s.weights (move before op).1 = some (val op))
    (d : Int) (hd : d ∈ [0, 1, 2, 3]) (hdl : (move before d).2 ≠ -1)
    (hmin : MIN_FLOAT < val d + ((move before d).2 : F))
    (hmax : ∀ op ∈ [0, 1, 2, 3], (move before op).2 ≠ -1 →
      val op + ((move before op).2 : F) ≤ val d + ((move before d).2 : F))
    (hlow : ∀ op ∈ [0, 1, 2, 3], (move before op).2 ≠ -1 →
      val op + ((move before op).2 : F) = val d + ((move before d).2 : F) → d ≤ op) :
    ∃ s', take_action M MIN_FLOAT move s before = some (action.mk d, s') := by
  rcases take_action_spec M MIN_FLOAT move s before val hval with
    ⟨_, hle⟩ | ⟨l1, e, l2, hl, he, htake, _, h1, h2⟩
  · exact absurd (hle d hd hdl) (not_le.mpr hmin)
  · have hsorted : List.Pairwise (· < ·) ([0, 1, 2, 3] : List Int) := by decide
    have he_mem : e ∈ ([0, 1, 2, 3] : List Int) := by rw [hl]; simp
    rw [hl] at hsorted hd
    have hafter : ∀ x ∈ l2, e < x :=
      (List.pairwise_cons.mp (List.pairwise_append.mp hsorted).2.1).1
    rcases List.mem_append.mp hd with h | h
    · exact absurd (hmax e he_mem he) (not_le.mpr (h1 d h hdl))
    · rcases List.mem_cons.mp h with rfl | h
      · exact ⟨_, htake⟩
      · have heq : val e + ((move before e).2 : F) = val d + ((move before d).2 : F) :=
          le_antisymm (hmax e he_mem he) (h2 d h hdl)
        exact absurd (hlow e he_mem he heq) (not_le.mpr (hafter d h))

/-- Above the sentinel a single legal direction is returned: when exactly one
direction `d` is legal and its score is greater than `MIN_FLOAT`,
`take_action` returns the action of `d`. -/
theorem take_action_single_legal_above_sentinel {F : Type} [LinearOrderedRing F] (M : Int) (MIN_FLOAT : F)
    (move : board → Int → board × Int) (s : player F) (before : board) (v : F)
    (d : Int) (hd : d ∈ [0, 1, 2, 3]) (hdl : (move before d).2 ≠ -1)
    (honly : ∀ op ∈ [0, 1, 2, 3], (move before op).2 ≠ -1 → op = d)
    (hval : board_value M s.weights (move before d).1 = some v)
    (hmin : MIN_FLOAT < v + ((move before d).2 : F)) :
    ∃ s', take_action M MIN_FLOAT move s before = some (action.mk d, s') := by
  have hval_all : ∀ op ∈ [0, 1, 2, 3], (move before op).2 ≠ -1 →
      board_value M s.weights (move before op).1 = some ((fun _ => v) op) := by
    intro op hop hopl
    rw [honly op hop hopl]
    exact hval
  rcases take_action_spec M MIN_FLOAT move s before (fun _ => v) hval_all with
    ⟨_, hle⟩ | ⟨l1, e, l2, hl, he, htake, _, _, _⟩
  · exact absurd (hle d hd hdl) (not_le.mpr hmin)
  · have he_mem : e ∈ ([0, 1, 2, 3] : List Int) := by rw [hl]; simp
    rw [honly e he_mem he] at htake
    exact ⟨_, htake⟩

/-- Above the sentinel the step is recorded: when some legal direction has a
score greater than `MIN_FLOAT`, `take_action` keeps the recorded steps and
appends the step of the returned direction; when no direction is legal the
player is unchanged. -/
theorem take_action_appends_step_above_sentinel {F : Type} [LinearOrderedRing F] (M : Int) (MIN_FLOAT : F)
    (move : board → Int → board × Int) (s : player F) (before : board) (val : Int → F)
    (hval : ∀ op ∈ [0, 1, 2, 3], (move before op).2 ≠ -1 →
      board_value M s.weights (move before op).1 = some (val op)) :
    ((∃ op ∈ [0, 1, 2, 3], (move before op).2 ≠ -1 ∧
        MIN_FLOAT < val op + ((move before op).2 : F)) →
      ∃ d ∈ [0, 1, 2, 3], (move before d).2 ≠ -1 ∧
        take_action M MIN_FLOAT move s before
          = some (action.mk d, { s with episode := s.episode ++
              [state.mk (move before d).1 (action.mk d) (move before d).2] })) ∧
    ((∀ op ∈ [0, 1, 2, 3], (move before op).2 = -1) →
      take_action M MIN_FLOAT move s before = some (action.mk 0, s)) := by
  constructor
  · rintro ⟨op, hop, hopl, hlt⟩
    rcases take_action_spec M MIN_FLOAT move s before val hval with
      ⟨_, hle⟩ | ⟨l1, d, l2, hl, hd, htake, _, _, _⟩
    · exact absurd (hle op hop hopl) (not_le.mpr hlt)
    · exact ⟨d, by rw [hl]; simp, hd, htake⟩
  · intro hno
    exact take_action_all_below M MIN_FLOAT move s before val hval
      (fun op hop hl => absurd (hno op hop) hl)

/-! ## Claims on the feature extractor and the value function -/

/-- C1: for every board and every pattern `p` of the table `indexs`,
`get_feature` is the base-`M` numeral of the clamped ranks, the first position
of the pattern being the most significant digit: the sum over `i = 0 .. 5` of
`min (rank at (p_i / 4, p_i % 4)) (M - 1) * M ^ (5 - i)`. -/
theorem get_feature_eq_numeral (M : Int) (b : board) (p : List Nat) (hp : p ∈ indexs) :
    p.length = 6 ∧
    get_feature M b p
      = ∑ i in Finset.range 6, min (b (p.getD i 0 / 4) (p.getD i 0 % 4)) (M - 1) * M ^ (5 - i) := by
  refine ⟨(indexs_shape p hp).1, ?_⟩
  simp only [get_feature, TUPLE_LENGTH, List.range_succ, List.range_zero, List.nil_append,
    List.cons_append, List.foldl_cons, List.foldl_nil, get_feature_step_eq, Finset.sum_range_succ,
    Finset.sum_range_zero]
  ring

/-- Witness of C1 at `M = 21`, the sample board and the first pattern. -/
theorem get_feature_eq_numeral_witness :
    [0, 4, 8, 9, 12, 13] ∈ indexs ∧
    get_feature 21 sample_board [0, 4, 8, 9, 12, 13]
      = ∑ i in Finset.range 6,
          min (sample_board (([0, 4, 8, 9, 12, 13] : List Nat).getD i 0 / 4)
                (([0, 4, 8, 9, 12, 13] : List Nat).getD i 0 % 4)) (21 - 1) * 21 ^ (5 - i) :=
  ⟨by decide, (get_feature_eq_numeral 21 sample_board [0, 4, 8, 9, 12, 13] (by decide)).2⟩

/-- C2: for `M ≥ 1`, a board of non-negative ranks and each of the 32
patterns, the feature index lies in `[0, M^6)`; hence on a store of 32 tables
of length `M^6` the read `weights[p][feature]` is in range, and so is every
read and write made by `lookup_value` and by both `train_weights`, which all
return a result. -/
theorem get_feature_in_range {F : Type} [LinearOrderedRing F] (M : Int) (hM : 1 ≤ M)
    (b : board) (hb : ∀ r c, 0 ≤ b r c) (p : Nat) (hp : p < 32) :
    0 ≤ get_feature M b (indexs.getD p []) ∧ get_feature M b (indexs.getD p []) < M ^ 6 ∧
    ∀ s : player F, well_formed M s.weights →
      (∃ x, weights_get s.weights p (get_feature M b (indexs.getD p [])) = some x) ∧
      (∃ v, lookup_value s.weights (get_features M b) = some v) ∧
      (∃ s', train_weights_terminal M s b = some s') ∧
      ∀ next_b reward, (∀ r c, 0 ≤ next_b r c) →
        ∃ s', train_weights M s b next_b reward = some s' := by
  have hbd := get_feature_bound M hM b hb (indexs.getD p [])
  refine ⟨hbd.1, hbd.2, fun s hW => ⟨?_, ?_, ?_, fun next_b reward hn => ?_⟩⟩
  · exact weights_get_some M s.weights hW p hp _ hbd.1 hbd.2
  · exact lookup_value_some M s.weights hW _ (get_features_in_range M hM b hb)
  · obtain ⟨s', hs', _⟩ := train_weights_terminal_some M hM s hW b hb
    exact ⟨s', hs'⟩
  · obtain ⟨s', hs', _⟩ := train_weights_some M hM s hW b next_b hb hn reward
    exact ⟨s', hs'⟩

/-- Witness of C2 at `M = 2`, the sample board and the first pattern. -/
theorem get_feature_in_range_witness :
    ((1 : Int) ≤ 2 ∧ (∀ r c, 0 ≤ sample_board r c) ∧ 0 < 32) ∧
    0 ≤ get_feature 2 sample_board (indexs.getD 0 []) ∧
    get_feature 2 sample_board (indexs.getD 0 []) < 2 ^ 6 ∧
    ∀ s : player ℚ, well_formed 2 s.weights →
      (∃ x, weights_get s.weights 0 (get_feature 2 sample_board (indexs.getD 0 [])) = some x) ∧
      (∃ v, lookup_value s.weights (get_features 2 sample_board) = some v) ∧
      (∃ s', train_weights_terminal 2 s sample_board = some s') ∧
      ∀ next_b reward, (∀ r c, 0 ≤ next_b r c) →
        ∃ s', train_weights 2 s sample_board next_b reward = some s' :=
  ⟨⟨by decide, fun r c => Int.ofNat_nonneg _, by decide⟩,
    get_feature_in_range 2 (by decide) sample_board (fun r c => Int.ofNat_nonneg _) 0
      (by decide)⟩

/-- C3: when the 32 entries `weights[p][get_feature(b, indexs[p])]` have the
values `x p`, `board_value b` is their sum taken in the order `p = 0 .. 31`
starting from 0; `get_features b` has 32 entries, the `p`-th being the feature
index of pattern `p`. -/
theorem board_value_eq_sum {F : Type} [Zero F] [Add F] (M : Int) (W : List (List F))
    (b : board) (x : Nat → F)
    (hx : ∀ p, p < 32 → weights_get W p (get_feature M b (indexs.getD p [])) = some (x p)) :
    board_value M W b = some ((List.range 32).foldl (fun v p => v + x p) 0) ∧
    (get_features M b).length = 32 ∧
    ∀ p, p < 32 → (get_features M b)[p]? = some (get_feature M b (indexs.getD p [])) := by
  refine ⟨?_, get_features_length M b, fun p hp => get_features_getElem? M b p hp⟩
  exact lookup_value_eq_some W (get_features M b) x
    (fun i hi => ⟨_, get_features_getElem? M b i hi, hx i hi⟩)

/-- Witness of C3 at `M = 2`, the sample store and the sample board: the
value is the sum of 32 entries equal to 1. -/
theorem board_value_eq_sum_witness :
    (∀ p, p < 32 →
      weights_get sample_weights p (get_feature 2 sample_board (indexs.getD p [])) = some 1) ∧
    board_value 2 sample_weights sample_board
      = some ((List.range 32).foldl (fun v _ => v + (1 : ℚ)) 0) :=
  ⟨by decide, (board_value_eq_sum 2 sample_weights sample_board (fun _ => 1) (by decide)).1⟩

/-! ## Claims on the action selector -/

/-- C4: when some direction of 0..3 is legal and the score
`value(resulting board) + reward` of every legal direction is greater than
`MIN_FLOAT`, `take_action` returns a legal direction whose score is at least the
score of every legal direction. -/
theorem take_action_maximal {F : Type} [LinearOrderedRing F] (M : Int) (MIN_FLOAT : F)
    (move : board → Int → board × Int) (s : player F) (before : board) (val : Int → F)
    (hval : ∀ op ∈ [0, 1, 2, 3], (move before op).2 ≠ -1 →
      board_value M s.weights (move before op).1 = some (val op))
    (hlegal : ∃ op ∈ [0, 1, 2, 3], (move before op).2 ≠ -1)
    (hmin : ∀ op ∈ [0, 1, 2, 3], (move before op).2 ≠ -1 →
      MIN_FLOAT < val op + ((move before op).2 : F)) :
    ∃ d s', take_action M MIN_FLOAT move s before = some (action.mk d, s') ∧
      d ∈ [0, 1, 2, 3] ∧ (move before d).2 ≠ -1 ∧
      ∀ op ∈ [0, 1, 2, 3], (move before op).2 ≠ -1 →
        val op + ((move before op).2 : F) ≤ val d + ((move before d).2 : F) := by
  rcases take_action_spec M MIN_FLOAT move s before val hval with
    ⟨_, hle⟩ | ⟨l1, d, l2, hl, hd, htake, _, h1, h2⟩
  · obtain ⟨op, hop, hopl⟩ := hlegal
    exact absurd (hle op hop hopl) (not_le.mpr (hmin op hop hopl))
  · refine ⟨d, _, htake, by rw [hl]; simp, hd, ?_⟩
    intro op hop hopl
    rw [hl] at hop
    rcases List.mem_append.mp hop with h | h
    · exact le_of_lt (h1 op h hopl)
    · rcases List.mem_cons.mp h with rfl | h
      · exact le_rfl
      · exact h2 op h hopl

/-- Witness of C4: on the sample board with the sample store every direction
is legal with value 32; direction 2 has the greatest score, `32 + 8`. -/
theorem take_action_maximal_witness :
    ∃ d s', take_action 2 lowest_float sample_move
        (player.mk sample_weights [] (1 / 400)) sample_board = some (action.mk d, s') ∧
      d ∈ [0, 1, 2, 3] ∧ (sample_move sample_board d).2 ≠ -1 ∧
      ∀ op ∈ [0, 1, 2, 3], (sample_move sample_board op).2 ≠ -1 →
        (32 : ℚ) + ((sample_move sample_board op).2 : ℚ)
          ≤ 32 + ((sample_move sample_board d).2 : ℚ) :=
  take_action_maximal 2 lowest_float sample_move (player.mk sample_weights [] (1 / 400))
    sample_board (fun _ => 32) (by decide!) ⟨0, by decide, by decide⟩ (by decide!)

/-- C5 (the code at scores not above `MIN_FLOAT`): when direction 0 is not
legal and the greatest score of the legal directions, attained by `d1` and
by a later direction `d2`, is not greater than `MIN_FLOAT`, neither direction
replaces the initial `best_op = 0`: `take_action` returns `action(0)`, which
is not a legal direction, leaves the player unchanged, and does not return
`action(d1)`, the lowest-numbered direction of greatest score. -/
theorem take_action_tie_below_sentinel {F : Type} [LinearOrderedRing F] (M : Int)
    (MIN_FLOAT : F) (move : board → Int → board × Int) (s : player F) (before : board)
    (val : Int → F)
    (hval : ∀ op ∈ [0, 1, 2, 3], (move before op).2 ≠ -1 →
      board_value M s.weights (move before op).1 = some (val op))
    (d1 d2 : Int) (hl1 : (move before d1).2 ≠ -1)
    (hmax : ∀ op ∈ [0, 1, 2, 3], (move before op).2 ≠ -1 →
      val op + ((move before op).2 : F) ≤ val d1 + ((move before d1).2 : F))
    (hbelow : val d1 + ((move before d1).2 : F) ≤ MIN_FLOAT)
    (h0 : (move before 0).2 = -1) :
    d1 ∈ [0, 1, 2, 3] → d2 ∈ [0, 1, 2, 3] → d1 < d2 → (move before d2).2 ≠ -1 →
    val d1 + ((move before d1).2 : F) = val d2 + ((move before d2).2 : F) →
    take_action M MIN_FLOAT move s before = some (action.mk 0, s) ∧
    ¬ ∃ s', take_action M MIN_FLOAT move s before = some (action.mk d1, s') := by
  intro _ _ _ _ _
  have htake := take_action_all_below M MIN_FLOAT move s before val hval
    (fun op hop hl => le_trans (hmax op hop hl) hbelow)
  refine ⟨htake, ?_⟩
  rintro ⟨s', hs'⟩
  rw [htake] at hs'
  have hcode : (0 : Int) = d1 := congrArg (fun r => r.1.code) (Option.some.inj hs')
  rw [← hcode] at hl1
  exact hl1 h0

/-- Witness of C5: on the sample board with the store of entries `-FLT_MAX`
only the directions 1 and 2 are legal and both have the score
`32 * -FLT_MAX + 0`.  Whatever value not below `-FLT_MAX` the constant
`MIN_FLOAT` has, that score is not greater than it, and `take_action` returns
`action(0)`, not direction 1. -/
theorem take_action_tie_below_sentinel_witness :
    ((move_1_2 sample_board 0).2 = -1 ∧ (move_1_2 sample_board 1).2 ≠ -1 ∧
      (move_1_2 sample_board 2).2 ≠ -1 ∧ (move_1_2 sample_board 3).2 = -1) ∧
    (board_value 2 low_weights (move_1_2 sample_board 1).1 = some (32 * lowest_float) ∧
      board_value 2 low_weights (move_1_2 sample_board 2).1 = some (32 * lowest_float) ∧
      (move_1_2 sample_board 1).2 = (move_1_2 sample_board 2).2) ∧
    ∀ MIN_FLOAT : ℚ, lowest_float ≤ MIN_FLOAT →
      take_action 2 MIN_FLOAT move_1_2 (player.mk low_weights [] (1 / 400)) sample_board
        = some (action.mk 0, player.mk low_weights [] (1 / 400)) ∧
      ¬ ∃ s', take_action 2 MIN_FLOAT move_1_2 (player.mk low_weights [] (1 / 400))
        sample_board = some (action.mk 1, s') := by
  refine ⟨by decide, ⟨by decide!, by decide!, by decide⟩, ?_⟩
  intro MIN_FLOAT hMIN
  have h32 : 32 * lowest_float ≤ lowest_float := by norm_num [lowest_float]
  refine take_action_tie_below_sentinel 2 MIN_FLOAT move_1_2
    (player.mk low_weights [] (1 / 400)) sample_board (fun _ => 32 * lowest_float)
    (by decide!) 1 2 (by decide) ?_ ?_ (by decide)
    (by decide) (by decide) (by decide) (by decide) rfl
  · intro op _ _
    have hr : ((move_1_2 sample_board op).2 : ℚ) ≤ 0 := by
      simp only [move_1_2]
      split_ifs <;> norm_num
    show 32 * lowest_float + _ ≤ 32 * lowest_float + ((move_1_2 sample_board 1).2 : ℚ)
    have h1 : ((move_1_2 sample_board 1).2 : ℚ) = 0 := by simp [move_1_2]
    linarith
  · show 32 * lowest_float + ((move_1_2 sample_board 1).2 : ℚ) ≤ MIN_FLOAT
    have h1 : ((move_1_2 sample_board 1).2 : ℚ) = 0 := by simp [move_1_2]
    linarith

/-- C6 (the code at a score not above `MIN_FLOAT`): when exactly one
direction `d` is legal, `d` is not direction 0 and the score of `d` is not
greater than `MIN_FLOAT`, the move does not initialise the running best:
`take_action` returns `action(0)`, a direction that is not legal and not the
action of `d`, and leaves the player unchanged. -/
theorem take_action_single_legal_below_sentinel {F : Type} [LinearOrderedRing F] (M : Int)
    (MIN_FLOAT : F) (move : board → Int → board × Int) (s : player F) (before : board)
    (v : F) (d : Int)
    (honly : ∀ op ∈ [0, 1, 2, 3], (move before op).2 ≠ -1 → op = d)
    (hval : board_value M s.weights (move before d).1 = some v)
    (hd0 : d ≠ 0)
    (hbelow : v + ((move before d).2 : F) ≤ MIN_FLOAT) :
    d ∈ [0, 1, 2, 3] → (move before d).2 ≠ -1 →
    take_action M MIN_FLOAT move s before = some (action.mk 0, s) ∧
    (move before 0).2 = -1 ∧ action.mk 0 ≠ action.mk d := by
  intro _ _
  refine ⟨?_, ?_, ?_⟩
  · refine take_action_all_below M MIN_FLOAT move s before (fun _ => v) ?_ ?_
    · intro op hop hopl
      rw [honly op hop hopl]
      exact hval
    · intro op hop hopl
      rw [honly op hop hopl]
      exact hbelow
  · by_contra h
    exact hd0 (honly 0 (by decide) h).symm
  · intro h
    exact hd0 (congrArg action.code h).symm

/-- Witness of C6: on the sample board with the store of entries `-FLT_MAX`
direction 1 is the only legal direction and its score is `32 * -FLT_MAX`.
Whatever value not below `-FLT_MAX` the constant `MIN_FLOAT` has, that score
is not greater than it, and `take_action` returns `action(0)` and pushes no
step. -/
theorem take_action_single_legal_below_sentinel_witness :
    ((move_only_1 sample_board 1).2 ≠ -1 ∧
      ∀ op ∈ [0, 1, 2, 3], (move_only_1 sample_board op).2 ≠ -1 → op = 1) ∧
    board_value 2 low_weights (move_only_1 sample_board 1).1 = some (32 * lowest_float) ∧
    ∀ MIN_FLOAT : ℚ, lowest_float ≤ MIN_FLOAT →
      take_action 2 MIN_FLOAT move_only_1 (player.mk low_weights [] (1 / 400)) sample_board
        = some (action.mk 0, player.mk low_weights [] (1 / 400)) ∧
      (move_only_1 sample_board 0).2 = -1 ∧ action.mk 0 ≠ action.mk 1 := by
  refine ⟨⟨by decide, by decide⟩, by decide!, ?_⟩
  intro MIN_FLOAT hMIN
  have h32 : 32 * lowest_float ≤ lowest_float := by norm_num [lowest_float]
  refine take_action_single_legal_below_sentinel 2 MIN_FLOAT move_only_1
    (player.mk low_weights [] (1 / 400)) sample_board (32 * lowest_float) 1
    (by decide) (by decide!) (by decide) ?_ (by decide) (by decide)
  show 32 * lowest_float + ((move_only_1 sample_board 1).2 : ℚ) ≤ MIN_FLOAT
  have h1 : ((move_only_1 sample_board 1).2 : ℚ) = 0 := by simp [move_only_1]
  linarith

/-- C7 (the code at a board without a legal move): when `move` returns `-1`
for each of the four directions, `take_action` returns `action(0)`, the
descriptor it returns when direction 0 is selected, and leaves the player
unchanged; it does not return a descriptor outside the four directions. -/
theorem take_action_no_legal_move {F : Type} [LinearOrderedRing F] (M : Int) (MIN_FLOAT : F)
    (move : board → Int → board × Int) (s : player F) (before : board)
    (hno : ∀ op ∈ [0, 1, 2, 3], (move before op).2 = -1) :
    take_action M MIN_FLOAT move s before = some (action.mk 0, s) ∧
      (action.mk 0).code ∈ [0, 1, 2, 3] :=
  ⟨take_action_all_below M MIN_FLOAT move s before (fun _ => 0)
      (fun op hop hl => absurd (hno op hop) hl) (fun op hop hl => absurd (hno op hop) hl),
    by decide⟩

/-- Witness of C7: the full board of alternating ranks 1 and 3, on which no
direction is legal. -/
theorem take_action_no_legal_move_witness :
    (∀ op ∈ [0, 1, 2, 3], (no_move dead_board op).2 = -1) ∧
    take_action 2 lowest_float no_move (player.mk sample_weights [] (1 / 400)) dead_board
      = some (action.mk 0, player.mk sample_weights [] (1 / 400)) ∧
    (action.mk 0).code ∈ [0, 1, 2, 3] :=
  ⟨by decide,
    take_action_no_legal_move 2 lowest_float no_move (player.mk sample_weights [] (1 / 400))
      dead_board (by decide)⟩

/-! ## Claims on the trainer -/

/-- C8 (the code at a store of entries 1 with `alpha = 1/400`): the value of
the board, 32, is read again from the tables in every iteration of the loop
of `train_weights(b)`.  Table 0 receives `alpha * (0 - 32)`; table 1 receives
`alpha * (0 - v)` with `v = 32 + alpha * (0 - 32)`, the value after the update
of table 0, and its entry is not `1 + alpha * (0 - 32)`. -/
theorem train_weights_terminal_rereads_value :
    board_value 2 sample_weights dead_board = some 32 ∧
    weights_get sample_weights 0 (get_feature 2 dead_board (indexs.getD 0 [])) = some 1 ∧
    weights_get sample_weights 1 (get_feature 2 dead_board (indexs.getD 1 [])) = some 1 ∧
    (train_weights_terminal 2 (player.mk sample_weights [] (1 / 400)) dead_board).bind
        (fun s => weights_get s.weights 0 (get_feature 2 dead_board (indexs.getD 0 [])))
      = some (1 + 1 / 400 * (0 - 32)) ∧
    (train_weights_terminal 2 (player.mk sample_weights [] (1 / 400)) dead_board).bind
        (fun s => weights_get s.weights 1 (get_feature 2 dead_board (indexs.getD 1 [])))
      = some (1 + 1 / 400 * (0 - (32 + 1 / 400 * (0 - 32)))) ∧
    (1 : ℚ) + 1 / 400 * (0 - (32 + 1 / 400 * (0 - 32))) ≠ 1 + 1 / 400 * (0 - 32) := by
  refine ⟨by decide!, by decide!, by decide!, by decide!, by decide!, by decide!⟩

/-- C9 fails as stated.  With the store of entries 0 and `alpha = 1/400`, the
entry of table 0 touched by the board B of the first step stays 0 after
`close_episode`, while the claim adds `alpha * (4 + 0 - 0)` to it: the reward
of the update of B is the one recorded with C, 0.  With the store of entries
1 and `alpha = 1/2` both values are 32 before `close_episode`, and the entry is
neither `1 + alpha * (4 + 32 - 32)` nor `1 + alpha * (0 + 32 - 32)`: the values
are read from the tables after the update of C. -/
theorem close_episode_two_steps_counterexample :
    (board_value 2 zero_weights dead_board = some 0 ∧
      board_value 2 zero_weights sample_board = some 0 ∧
      weights_get zero_weights 0 (get_feature 2 sample_board (indexs.getD 0 [])) = some 0 ∧
      (close_episode 2 (player.mk zero_weights two_steps (1 / 400))).bind
          (fun s => weights_get s.weights 0 (get_feature 2 sample_board (indexs.getD 0 [])))
        = some 0 ∧
      (0 : ℚ) ≠ 0 + 1 / 400 * (4 + 0 - 0)) ∧
    (board_value 2 sample_weights dead_board = some 32 ∧
      board_value 2 sample_weights sample_board = some 32 ∧
      weights_get sample_weights 0 (get_feature 2 sample_board (indexs.getD 0 [])) = some 1 ∧
      (close_episode 2 (player.mk sample_weights two_steps (1 / 2))).bind
          (fun s => weights_get s.weights 0 (get_feature 2 sample_board (indexs.getD 0 [])))
        = some (-15729201 / 2097152) ∧
      (-15729201 / 2097152 : ℚ) ≠ 1 + 1 / 2 * (4 + 32 - 32) ∧
      (-15729201 / 2097152 : ℚ) ≠ 1 + 1 / 2 * (0 + 32 - 32)) := by
  refine ⟨⟨by decide!, by decide!, by decide!, close_two_steps_zero_store, by decide!⟩,
    ⟨by decide!, by decide!, by decide!, close_two_steps_sample_store, by decide!, by decide!⟩⟩

/-- C9 (amended): closing an episode recorded as two steps, board B with
reward `r0` (4 in the claim) and then board C with reward `r1` (0 in the
claim), is the terminal update `train_weights(C)` followed by
`train_weights(B, C, r1)` on the tables that the terminal update has produced:
the reward of the update of B is the one recorded with C. -/
theorem close_episode_two_steps {F : Type} [LinearOrderedRing F] (M : Int)
    (W : List (List F)) (alpha : F) (B C : board) (a0 a1 : action) (r0 r1 : Int) :
    close_episode M (player.mk W [state.mk B a0 r0, state.mk C a1 r1] alpha)
      = (train_weights_terminal M (player.mk W [state.mk B a0 r0, state.mk C a1 r1] alpha) C).bind
          (fun s => train_weights M s B C r1) := by
  unfold close_episode
  have hlast : last_index 2 = 1 := by decide
  simp only [List.length_cons, List.length_nil, Nat.zero_add, Nat.reduceAdd, hlast,
    List.getElem?_cons_succ, List.getElem?_cons_zero, Option.map_some',
    Option.bind_eq_bind, Option.some_bind]
  apply option_bind_congr
  intro s1 hterm
  have hep := (train_weights_terminal_frame M _ s1 C hterm).1
  have hrange : (List.range (first_index 2 + 1).toNat).reverse = [0] := by
    rw [first_index_eq 2 (by decide) (by norm_num)]
    rfl
  simp only [hep, List.length_cons, List.length_nil, Nat.zero_add,
      Nat.reduceAdd, hrange, List.foldlM_cons, List.foldlM_nil, List.getElem?_cons_succ,
      List.getElem?_cons_zero, Option.bind_eq_bind, Option.some_bind, Option.pure_def]
  cases train_weights M s1 B C r1 <;> rfl

/-- C10 (the code at an empty record): `episode.size() - 1` is `2^64 - 1` and
`episode[episode.size() - 1]` is an access outside the empty vector, so
`close_episode` has no defined result there, also right after `open_episode`. -/
theorem close_episode_empty {F : Type} [LinearOrderedRing F] (M : Int) (s : player F)
    (W : List (List F)) (alpha : F) :
    last_index 0 = 2 ^ 64 - 1 ∧
    close_episode M (player.mk W [] alpha) = none ∧
    close_episode M (open_episode s) = none := by
  refine ⟨by norm_num [last_index], ?_, ?_⟩ <;> simp [close_episode, open_episode]

/-! ## Claims on the record, the frame and the clamping -/

/-- C11 (the code at scores not above `MIN_FLOAT`): when some direction is
legal but no legal direction has a score greater than `MIN_FLOAT`, `best_vs`
is still `MIN_FLOAT` after the loop and the guard of line 146 skips the push:
`take_action` returns `action(0)` and the record is the one it was given, no
step is appended. -/
theorem take_action_no_step_below_sentinel {F : Type} [LinearOrderedRing F] (M : Int)
    (MIN_FLOAT : F) (move : board → Int → board × Int) (s : player F) (before : board)
    (val : Int → F)
    (hval : ∀ op ∈ [0, 1, 2, 3], (move before op).2 ≠ -1 →
      board_value M s.weights (move before op).1 = some (val op))
    (hbelow : ∀ op ∈ [0, 1, 2, 3], (move before op).2 ≠ -1 →
      val op + ((move before op).2 : F) ≤ MIN_FLOAT) :
    (∃ op ∈ [0, 1, 2, 3], (move before op).2 ≠ -1) →
    ∃ s', take_action M MIN_FLOAT move s before = some (action.mk 0, s') ∧
      s'.episode = s.episode ∧ s'.episode.length ≠ s.episode.length + 1 :=
  fun _ => ⟨s, take_action_all_below M MIN_FLOAT move s before val hval hbelow, rfl,
    Nat.ne_of_lt (Nat.lt_succ_self _)⟩

/-- Witness of C11: on the sample board with the store of entries `-FLT_MAX`
direction 1 is legal, yet its score `32 * -FLT_MAX` is not greater than
`MIN_FLOAT` (whatever value not below `-FLT_MAX` that constant has): the
record keeps its two steps. -/
theorem take_action_no_step_below_sentinel_witness :
    (move_only_1 sample_board 1).2 ≠ -1 ∧
    ∀ MIN_FLOAT : ℚ, lowest_float ≤ MIN_FLOAT →
      ∃ s', take_action 2 MIN_FLOAT move_only_1 (player.mk low_weights two_steps (1 / 400))
          sample_board = some (action.mk 0, s') ∧
        s'.episode = two_steps ∧ s'.episode.length ≠ two_steps.length + 1 := by
  refine ⟨by decide, ?_⟩
  intro MIN_FLOAT hMIN
  have h32 : 32 * lowest_float ≤ lowest_float := by norm_num [lowest_float]
  refine take_action_no_step_below_sentinel 2 MIN_FLOAT move_only_1
    (player.mk low_weights two_steps (1 / 400)) sample_board (fun _ => 32 * lowest_float)
    (by decide!) ?_ ⟨1, by decide, by decide⟩
  intro op _ _
  have hr : ((move_only_1 sample_board op).2 : ℚ) ≤ 0 := by
    simp only [move_only_1]
    split_ifs <;> norm_num
  show 32 * lowest_float + _ ≤ MIN_FLOAT
  linarith

/-- C12: two boards whose ranks clamped at `M - 1` agree at all 16 cells (in
particular two boards with the same ranks) have the same feature indices and,
for every weight store, the same value. -/
theorem clamped_boards_indistinguishable {F : Type} [Zero F] [Add F] (M : Int)
    (b1 b2 : board)
    (h : ∀ r c, r < 4 → c < 4 → min (b1 r c) (M - 1) = min (b2 r c) (M - 1)) :
    get_features M b1 = get_features M b2 ∧
    ∀ W : List (List F), board_value M W b1 = board_value M W b2 := by
  have hf : get_features M b1 = get_features M b2 := by
    rw [get_features_eq_map, get_features_eq_map]
    apply List.map_congr_left
    intro i _
    exact get_feature_congr M b1 b2 _ (indexs_cell_lt i) h
  refine ⟨hf, fun W => ?_⟩
  unfold board_value
  rw [hf]

/-- Witness of C12 at `M = 21`: a board of ranks 20 and a board of ranks
20..35 differ at cell (3, 3) and have the same features and values. -/
theorem clamped_boards_indistinguishable_witness :
    (∀ r c, r < 4 → c < 4 →
      min (high_board_a r c) (21 - 1) = min (high_board_b r c) (21 - 1)) ∧
    high_board_a 3 3 ≠ high_board_b 3 3 ∧
    get_features 21 high_board_a = get_features 21 high_board_b ∧
    ∀ W : List (List ℚ), board_value 21 W high_board_a = board_value 21 W high_board_b :=
  ⟨fun r c _ _ => by simp [high_board_a, high_board_b]; omega, by decide,
    clamped_boards_indistinguishable 21 high_board_a high_board_b
      (fun r c _ _ => by simp [high_board_a, high_board_b]; omega)⟩

/-- C16: on a well-formed store `take_action` returns a result whose weight
tables (and learning rate) are those it was given, and so does every result
it can return; `open_episode` changes the record only. -/
theorem weights_unchanged_outside_close {F : Type} [LinearOrderedRing F] (M : Int)
    (hM : 1 ≤ M) (MIN_FLOAT : F) (move : board → Int → board × Int) (s : player F)
    (hW : well_formed M s.weights) (before : board)
    (hmove : ∀ op r c, 0 ≤ (move before op).1 r c) :
    (∃ a s', take_action M MIN_FLOAT move s before = some (a, s') ∧
      s'.weights = s.weights ∧ s'.alpha = s.alpha) ∧
    (∀ a s', take_action M MIN_FLOAT move s before = some (a, s') → s'.weights = s.weights) ∧
    (open_episode s).weights = s.weights ∧ (open_episode s).alpha = s.alpha := by
  obtain ⟨val, hval⟩ := scores_defined M hM move s hW before hmove
  refine ⟨?_, fun a s' h => (take_action_frame M MIN_FLOAT move s before a s' h).1, rfl, rfl⟩
  rcases take_action_spec M MIN_FLOAT move s before val hval with
    ⟨htake, _⟩ | ⟨_, d, _, _, _, htake, _, _, _⟩
  · exact ⟨_, _, htake, rfl, rfl⟩
  · exact ⟨_, _, htake, rfl, rfl⟩

/-- Witness of C16 on the sample store with a record of two steps. -/
theorem weights_unchanged_outside_close_witness :
    (∃ a s', take_action 2 lowest_float sample_move
        (player.mk sample_weights two_steps (1 / 400)) sample_board = some (a, s') ∧
      s'.weights = sample_weights ∧ s'.alpha = 1 / 400) ∧
    (∀ a s', take_action 2 lowest_float sample_move
        (player.mk sample_weights two_steps (1 / 400)) sample_board = some (a, s') →
      s'.weights = sample_weights) ∧
    (open_episode (player.mk sample_weights two_steps (1 / 400))).weights = sample_weights ∧
    (open_episode (player.mk sample_weights two_steps (1 / 400))).alpha = 1 / 400 :=
  weights_unchanged_outside_close 2 (by decide) lowest_float sample_move
    (player.mk sample_weights two_steps (1 / 400)) sample_weights_well_formed sample_board
    (fun _ r c => Int.ofNat_nonneg _)

/-! ## Claims on the pattern table -/

/-- C14: `indexs` has 32 patterns of exactly 6 positions, every position in
0..15, and the group `k` of four patterns is the image of the first four
patterns under the grid symmetry `T_k = grid_symmetry k`, position by
position.  The eight maps are bijections of the 16 cells built from the
quarter turn and the mirror image, `T_0` is the identity and the maps are
pairwise distinct. -/
theorem indexs_symmetric_images :
    indexs.length = 32 ∧
    (∀ p ∈ indexs, p.length = 6 ∧ ∀ x ∈ p, x < 16) ∧
    (∀ k, k < 8 → ∀ j, j < 4 → ∀ i, i < 6 →
      (indexs.getD (4 * k + j) []).getD i 0
        = grid_symmetry k ((indexs.getD j []).getD i 0)) ∧
    (∀ r, r < 4 → ∀ c, c < 4 →
      rotate_cell (4 * r + c) = 4 * c + (3 - r) ∧ mirror_cell (4 * r + c) = 4 * r + (3 - c)) ∧
    (∀ x, x < 16 → grid_symmetry 0 x = x) ∧
    (∀ k, k < 8 → ∀ x, x < 16 → grid_symmetry k x < 16 ∧
      ∀ y, y < 16 → grid_symmetry k x = grid_symmetry k y → x = y) ∧
    (∀ k, k < 8 → ∀ k', k' < 8 → k ≠ k' →
      ∃ x, x < 16 ∧ grid_symmetry k x ≠ grid_symmetry k' x) := by
  refine ⟨by decide, by decide, by decide, by decide, by decide, by decide, by decide⟩

/-! ## Claims on the configuration string -/

/-- C17: the tokens read by the constructor are the non-empty pieces of the
configuration string between whitespace.  When each of them contains `=`,
the property map sends every key `k` to the text after the first `=` of the
last token whose text before its first `=` is `k`, and has no value for a key
that no token carries; the key of every token is stored, whatever it is. -/
theorem agent_ctor_property (args : String)
    (htok : ∀ t ∈ read_tokens args.data [], Char.ofNat 61 ∈ t) :
    read_tokens args.data []
      = (args.data.splitOnP is_space).filter (fun t => !t.isEmpty) ∧
    (∀ k, agent_ctor args k
      = ((read_tokens args.data []).reverse.find? (fun t => key_of t = k)).map value_of) ∧
    (∀ t ∈ read_tokens args.data [],
      t = (key_of t).data ++ Char.ofNat 61 :: (value_of t).data ∧
      Char.ofNat 61 ∉ (key_of t).data ∧ ∃ v, agent_ctor args (key_of t) = some v) := by
  have hsplit := read_tokens_eq_split args.data [] (fun c hc => absurd hc (List.not_mem_nil c))
  simp only [List.reverse_nil, List.nil_append] at hsplit
  have hmap : ∀ k, agent_ctor args k
      = ((read_tokens args.data []).reverse.find? (fun t => key_of t = k)).map value_of := by
    intro k
    have hfun : (read_tokens args.data []).foldl
        (fun property pair => property_set property (split_pair pair).1 (split_pair pair).2)
        (fun _ => none)
        = (read_tokens args.data []).foldl
          (fun property pair => property_set property (key_of pair) (value_of pair))
          (fun _ => none) := by
      apply foldl_congr_mem
      intro m t ht
      rw [split_pair_eq t (htok t ht)]
    unfold agent_ctor
    rw [hfun, foldl_property_set]
    cases (read_tokens args.data []).reverse.find? (fun t => key_of t = k) <;> rfl
  refine ⟨hsplit, hmap, fun t ht => ⟨?_, ?_, ?_⟩⟩
  · exact token_eq_key_value t (htok t ht)
  · exact fun h => key_has_no_eq t h
  · rw [hmap]
    cases hfind : (read_tokens args.data []).reverse.find? (fun t' => key_of t' = key_of t) with
    | some t' => exact ⟨value_of t', rfl⟩
    | none =>
      have := List.find?_eq_none.mp hfind t (List.mem_reverse.mpr ht)
      simp at this

/-- Witness of C17: the key `seed` occurs twice and keeps its last value; the
key `colour` is stored although nothing reads it; `load` is absent. -/
theorem agent_ctor_property_witness :
    (∀ t ∈ read_tokens "seed=1 alpha=0.0025 colour=red seed=7".data [], Char.ofNat 61 ∈ t) ∧
    agent_ctor "seed=1 alpha=0.0025 colour=red seed=7" "seed" = some "7" ∧
    agent_ctor "seed=1 alpha=0.0025 colour=red seed=7" "colour" = some "red" ∧
    agent_ctor "seed=1 alpha=0.0025 colour=red seed=7" "load" = none ∧
    (∀ k, agent_ctor "seed=1 alpha=0.0025 colour=red seed=7" k
      = ((read_tokens "seed=1 alpha=0.0025 colour=red seed=7".data []).reverse.find?
          (fun t => key_of t = k)).map value_of) :=
  ⟨by decide, by decide, by decide, by decide,
    (agent_ctor_property "seed=1 alpha=0.0025 colour=red seed=7" (by decide)).2.1⟩

/-! ## Claims on the weight file -/

/-- C13: for a store of fewer than `2^64` tables, each of fewer than `2^64`
entries, whose values are given back by the raw read of their 4 bytes,
`load_weights` on the bytes written by `save_weights` yields the store
itself: the same number of tables, the same lengths and the same value at
every entry. -/
theorem save_load_round_trip {F : Type} (float_bytes : F → List Nat)
    (bytes_float : List Nat → F) (W : List (List F)) (hn : W.length < 2 ^ 64)
    (hw : ∀ w ∈ W, w.length < 2 ^ 64)
    (hraw : ∀ w ∈ W, ∀ x ∈ w, (float_bytes x).length = 4 ∧ bytes_float (float_bytes x) = x) :
    load_weights bytes_float (some (save_weights float_bytes W)) = Except.ok W := by
  unfold load_weights save_weights
  have hge : ¬ (size_bytes W.length ++ (W.map (write_weight float_bytes)).flatten).length < 8 := by
    rw [List.length_append, size_bytes_length]; omega
  simp only [if_neg hge]
  have := bytes_size_size_bytes W.length hn ((W.map (write_weight float_bytes)).flatten)
  rw [this, List.drop_left' (size_bytes_length _),
    read_weights_write float_bytes bytes_float W hw hraw]

/-- Witness of C13 on the sample store of 32 tables of 64 entries 1. -/
theorem save_load_round_trip_witness :
    load_weights sample_bytes_float (some (save_weights sample_float_bytes sample_weights))
      = Except.ok sample_weights :=
  save_load_round_trip sample_float_bytes sample_bytes_float sample_weights (by decide)
    (fun w hw => by rw [List.eq_of_mem_replicate hw]; simp)
    (fun w hw x hx => by
      rw [List.eq_of_mem_replicate hw] at hx
      rw [List.eq_of_mem_replicate hx]
      decide)

/-! ## Claims on the construction -/

/-- C15: for a configuration string without a `load` key, every player that
the constructor returns has exactly 32 weight tables, each of length `M^6`
with every entry zero, and an empty record, and for `M ≥ 1` the value of
every board of non-negative ranks is then 0; the constructor returns a player when the values of `seed` and
`alpha`, if present, can be converted, and ends in the exception of the
conversion otherwise. -/
theorem player_ctor_zero_tables {F : Type} [LinearOrderedRing F] (M : Int) (alpha_default : F)
    (stod_int : String → Option Int) (stod_float : String → Option F)
    (bytes_float : List Nat → F)
    (open_file : String → Option (List Nat)) (args : String)
    (hload : agent_ctor ("name=player " ++ args) "load" = none) :
    (∀ s, player_ctor M alpha_default stod_int stod_float bytes_float open_file args
        = Except.ok s →
      s.weights.length = 32 ∧
      (∀ w ∈ s.weights, (w.length : Int) = M ^ 6 ∧ ∀ x ∈ w, x = 0) ∧
      s.episode = [] ∧
      (1 ≤ M → ∀ b : board, (∀ r c, 0 ≤ b r c) → board_value M s.weights b = some 0)) ∧
    ((∀ value, agent_ctor ("name=player " ++ args) "seed" = some value →
        stod_int value ≠ none) →
      (∀ value, agent_ctor ("name=player " ++ args) "alpha" = some value →
        stod_float value ≠ none) →
      ∃ s, player_ctor M alpha_default stod_int stod_float bytes_float open_file args
        = Except.ok s) ∧
    ((∃ value, agent_ctor ("name=player " ++ args) "seed" = some value ∧
          stod_int value = none) ∨
        (∃ value, agent_ctor ("name=player " ++ args) "alpha" = some value ∧
          stod_float value = none) →
      player_ctor M alpha_default stod_int stod_float bytes_float open_file args
        = Except.error ctor_failure.conversion) := by
  have hcases := player_ctor_cases M alpha_default stod_int stod_float bytes_float
    open_file args hload
  refine ⟨?_, ?_, ?_⟩
  · intro s hs
    rcases hcases with ⟨hbad, _⟩ | ⟨alpha, hok, _⟩
    · rw [hbad] at hs
      exact absurd hs (by simp)
    · rw [hok] at hs
      have hs' := (Except.ok.inj hs).symm
      subst hs'
      refine ⟨?_, ?_, rfl, ?_⟩
      · simp only [List.length_replicate, TUPLE_NUM]
      · intro w hw
        rw [List.eq_of_mem_replicate hw]
        exact ⟨by rw [List.length_replicate]; exact feature_num_eq M,
          fun x hx => List.eq_of_mem_replicate hx⟩
      · intro hM b hb
        exact zero_store_value M hM _ (feature_num_eq M) b hb
  · intro hseed halpha
    rcases hcases with ⟨_, ⟨value, hv, hnone⟩ | ⟨value, hv, hnone⟩⟩ | ⟨alpha, hok, _⟩
    · exact absurd hnone (hseed value hv)
    · exact absurd hnone (halpha value hv)
    · exact ⟨_, hok⟩
  · intro hbad
    rcases hcases with ⟨h, _⟩ | ⟨alpha, _, hseed, halpha⟩
    · exact h
    · rcases hbad with ⟨value, hv, hnone⟩ | ⟨value, hv, hnone⟩
      · exact absurd hnone (hseed value hv)
      · exact absurd hnone (halpha value hv)

/-- Witness of C15 at `M = 21` for the string
`seed=1 alpha=0.0025 save=weights.bin`, whose two numbers are converted. -/
theorem player_ctor_zero_tables_witness :
    agent_ctor ("name=player " ++ "seed=1 alpha=0.0025 save=weights.bin") "load" = none ∧
    ∃ s, player_ctor 21 (1 / 400 : ℚ) sample_stod_int sample_stod_float sample_bytes_float
        (fun _ => none) "seed=1 alpha=0.0025 save=weights.bin" = Except.ok s ∧
      s.weights.length = 32 ∧
      (∀ w ∈ s.weights, (w.length : Int) = 21 ^ 6 ∧ ∀ x ∈ w, x = 0) ∧
      s.episode = [] ∧
      ((1 : Int) ≤ 21 → ∀ b : board, (∀ r c, 0 ≤ b r c) →
        board_value 21 s.weights b = some 0) := by
  have h := player_ctor_zero_tables 21 (1 / 400 : ℚ) sample_stod_int sample_stod_float
    sample_bytes_float (fun _ => none) "seed=1 alpha=0.0025 save=weights.bin"
    (by decide)
  have hseed : agent_ctor ("name=player " ++ "seed=1 alpha=0.0025 save=weights.bin") "seed"
      = some "1" := by decide
  have halpha : agent_ctor ("name=player " ++ "seed=1 alpha=0.0025 save=weights.bin") "alpha"
      = some "0.0025" := by decide
  obtain ⟨s, hs⟩ := h.2.1
    (fun value hv => by
      rw [hseed] at hv
      rw [← Option.some.inj hv]
      decide)
    (fun value hv => by
      rw [halpha] at hv
      rw [← Option.some.inj hv]
      decide)
  exact ⟨by decide, s, hs, h.1 s hs⟩

/-! ## Claims on the backward sweep and its frame -/

/-- C18: for a record of `N ≥ 1` steps with `N ≤ 2^31` (so that
`episode.size() - 2` and every `i + 1` fit the `int` loop variable of
line 113), `close_episode` is the terminal update `train_weights(step[N-1].after)`
followed by `train_weights(a.after, b.after, b.reward)` over the pairs
`(a, b) = (step[i], step[i+1])` of consecutive steps taken in reverse order,
`i = N-2, .., 0`: there are `N - 1` such pairs, hence `N` updates, and the
reward of the update of step `i` is the one recorded in step `i + 1`. -/
theorem close_episode_backward_sweep {F : Type} [LinearOrderedRing F] (M : Int)
    (s : player F) (hne : s.episode ≠ []) (hsize : s.episode.length ≤ 2 ^ 31) :
    close_episode M s
      = (train_weights_terminal M s (s.episode.getLast hne).after).bind
          (fun s1 => (s.episode.zip s.episode.tail).reverse.foldlM
            (fun (t : player F) p => train_weights M t p.1.after p.2.after p.2.reward) s1) ∧
    (s.episode.zip s.episode.tail).length + 1 = s.episode.length ∧
    ∀ i, (s.episode.zip s.episode.tail)[i]?
      = (s.episode[i]?).bind (fun step => (s.episode[i + 1]?).map (fun step_next =>
          (step, step_next))) := by
  refine ⟨close_episode_eq M s hne (le_trans hsize (Nat.le_succ _)), ?_, ?_⟩
  · have hpos : 0 < s.episode.length := List.length_pos.mpr hne
    rw [List.length_zip, List.length_tail]
    omega
  · intro i
    rw [List.zip_eq_zipWith, List.getElem?_zipWith', List.getElem?_tail]
    cases s.episode[i]? <;> rfl

/-- Witness of C18 on the record of two steps: the terminal update of the
dead board, then the update of the sample board with the reward 0 recorded
in the second step. -/
theorem close_episode_backward_sweep_witness :
    (two_steps ≠ [] ∧ two_steps.length ≤ 2 ^ 31) ∧
    close_episode 2 (player.mk sample_weights two_steps (1 / 400))
      = (train_weights_terminal 2 (player.mk sample_weights two_steps (1 / 400))
          dead_board).bind
          (fun s1 => train_weights 2 s1 sample_board dead_board 0) := by
  have hlen : two_steps.length ≤ 2 ^ 31 := by
    show 2 ≤ 2 ^ 31
    norm_num
  refine ⟨⟨List.cons_ne_nil _ _, hlen⟩, ?_⟩
  have h := (close_episode_backward_sweep 2 (player.mk sample_weights two_steps (1 / 400))
    (List.cons_ne_nil _ _) hlen).1
  rw [h]
  apply option_bind_congr
  intro s1 _
  simp [two_steps, List.foldlM_cons]

/-- C19: for a record of `N ≥ 1` steps (`N < 2^64`), every result of
`close_episode` has the same record, the same number of tables and the same
table lengths as before, and the same entry `(p, k)` unless `p < 32` and `k`
is the feature `get_feature(step[i].after, indexs[p])` of a recorded step;
on a well-formed store and steps of non-negative ranks there is a result. -/
theorem close_episode_frame {F : Type} [LinearOrderedRing F] (M : Int) (s : player F)
    (hne : s.episode ≠ []) (hsize : s.episode.length < 2 ^ 64) :
    (∀ s', close_episode M s = some s' →
      s'.episode = s.episode ∧
      s'.weights.length = s.weights.length ∧
      (∀ p : Nat, (s'.weights[p]?).map List.length = (s.weights[p]?).map List.length) ∧
      ∀ p k, ¬ (p < 32 ∧ ∃ step ∈ s.episode, k = get_feature M step.after (indexs.getD p [])) →
        weights_get s'.weights p k = weights_get s.weights p k) ∧
    (1 ≤ M → well_formed M s.weights → (∀ step ∈ s.episode, ∀ r c, 0 ≤ step.after r c) →
      ∃ s', close_episode M s = some s') := by
  constructor
  · intro s' hs'
    obtain ⟨hep, _, h1, h2, h3⟩ := close_episode_touches M s s' hne hsize hs'
    exact ⟨hep, h1, h2, h3⟩
  · intro hM hW hb
    obtain ⟨s', hs', _⟩ := close_episode_some M hM s hW hne hsize hb
    exact ⟨s', hs'⟩

/-- Witness of C19 on the sample store with the record of two steps. -/
theorem close_episode_frame_witness :
    (two_steps ≠ [] ∧ two_steps.length < 2 ^ 64) ∧
    ∃ s', close_episode 2 (player.mk sample_weights two_steps (1 / 400)) = some s' ∧
      s'.episode = two_steps ∧
      s'.weights.length = sample_weights.length ∧
      (∀ p : Nat, (s'.weights[p]?).map List.length = (sample_weights[p]?).map List.length) ∧
      ∀ p k, ¬ (p < 32 ∧
          ∃ step ∈ two_steps, k = get_feature 2 step.after (indexs.getD p [])) →
        weights_get s'.weights p k = weights_get sample_weights p k := by
  have h := close_episode_frame 2 (player.mk sample_weights two_steps (1 / 400))
    (List.cons_ne_nil _ _) (by decide)
  obtain ⟨s', hs'⟩ := h.2 (by decide) sample_weights_well_formed two_steps_nonneg
  exact ⟨⟨List.cons_ne_nil _ _, by decide⟩, s', hs', h.1 s' hs'⟩

/-! ## Claims on the terminal update as coded -/

/-- C20: in exact arithmetic, whenever the board `C` has the value `v` and
the terminal update `train_weights(C)`, which reads the value again in each of
its 32 iterations, returns a store, the value of `C` on that store is
`(1 - alpha)^32 * v`, and for `v = 0` the update changes nothing.  For
`0 < alpha < 1` the new value has the sign of `v` and is strictly closer to 0.
On a well-formed store and a board of non-negative ranks the value and the
updated store exist. -/
theorem terminal_update_scales_value {F : Type} [LinearOrderedRing F] (M : Int)
    (s : player F) (C : board) :
    (∀ v s', board_value M s.weights C = some v → train_weights_terminal M s C = some s' →
      board_value M s'.weights C = some ((1 - s.alpha) ^ 32 * v) ∧ (v = 0 → s' = s)) ∧
    (∀ v : F, 0 < s.alpha → s.alpha < 1 →
      (0 < v → 0 < (1 - s.alpha) ^ 32 * v ∧ (1 - s.alpha) ^ 32 * v < v) ∧
      (v < 0 → v < (1 - s.alpha) ^ 32 * v ∧ (1 - s.alpha) ^ 32 * v < 0)) ∧
    (1 ≤ M → well_formed M s.weights → (∀ r c, 0 ≤ C r c) →
      ∃ v s', board_value M s.weights C = some v ∧
        train_weights_terminal M s C = some s') := by
  refine ⟨?_, ?_, ?_⟩
  · intro v s' hv hs'
    rw [train_weights_terminal_eq_fold] at hs'
    obtain ⟨_, htv, hfix⟩ := terminal_prefix_of_some M s C v hv TUPLE_NUM le_rfl s' hs'
    exact ⟨htv, hfix⟩
  · intro v h0 h1
    have hc0 : 0 < (1 - s.alpha) ^ 32 := pow_pos (sub_pos.mpr h1) 32
    have hc1 : (1 - s.alpha) ^ 32 < 1 :=
      pow_lt_one₀ (le_of_lt (sub_pos.mpr h1)) (sub_lt_self 1 h0) (by decide)
    constructor
    · intro hvpos
      exact ⟨mul_pos hc0 hvpos, mul_lt_of_lt_one_left hvpos hc1⟩
    · intro hvneg
      exact ⟨lt_mul_of_lt_one_left hvneg hc1, mul_neg_of_pos_of_neg hc0 hvneg⟩
  · intro hM hW hC
    obtain ⟨v, hv⟩ := board_value_some M hM s.weights hW C hC
    obtain ⟨s', hs', _⟩ := train_weights_terminal_some M hM s hW C hC
    exact ⟨v, s', hv, hs'⟩

/-- An instance of C20 on the sample store, the dead board and
`alpha = 1/400`: the value 32 becomes `(399/400)^32 * 32`. -/
theorem terminal_update_scales_value_witness :
    ∃ s', board_value 2 sample_weights dead_board = some 32 ∧
      train_weights_terminal 2 (player.mk sample_weights [] (1 / 400)) dead_board = some s' ∧
      board_value 2 s'.weights dead_board = some ((1 - (1 / 400 : ℚ)) ^ 32 * 32) ∧
      (0 : ℚ) < (1 - (1 / 400 : ℚ)) ^ 32 * 32 ∧ (1 - (1 / 400 : ℚ)) ^ 32 * 32 < 32 := by
  have h := terminal_update_scales_value 2 (player.mk sample_weights [] (1 / 400)) dead_board
  obtain ⟨v, s', hv, hs'⟩ := h.2.2 (by decide) sample_weights_well_formed dead_board_nonneg
  have hv32 : board_value 2 sample_weights dead_board = some 32 := by decide!
  have hsign := (h.2.1 32 (by norm_num) (by norm_num)).1 (by norm_num)
  exact ⟨s', hv32, hs', (h.1 32 s' hv32 hs').1, hsign.1, hsign.2⟩

end Ntuple
